import Mathlib

/-!
# Graphs: a directed weighted graph container with a minimum-cost path query

Shallow embedding of `GraphLink.hpp`, `GraphNode.hpp` and `Graph.hpp`.

Modelling conventions.

* A `GraphNode<T>*` is an address (`Node`, a natural number).  A `Graph` is the vector
  `nodes` of the store; every entry carries the address of the node object together with
  the object itself (payload and link vector).  Dereferencing an address that is not in
  the store is a fault (`Fault.dangling`): the only node objects of the model are the ones
  of the store.
* A `GraphLink<T>` is the pair of its two fields.  A `GraphLink<T>*` that may be `NULL`
  is an `Option GraphLink`.
* `int` arithmetic is done in `Int`; an addition whose result leaves the 32 bit range is a
  fault (`Fault.overflow`).
* `Graph::myDijkstra` reads its local `retVal` before any assignment when
  `current != destination`.  The value found there is supplied by `junk`, a function of
  the position of the activation in the recursion tree (the list of link indices that
  leads to it, innermost first), so that every activation can hold a different value.
* The recursion of `myDijkstra` is driven by a fuel argument; `fuel_suffices` shows that
  the fuel given by the public entry points is never exhausted.
* A member function of `GraphNode` called through a pointer changes the object at that
  address and no other (`Graph.onNode`).  Sequences of calls on a store are lists of
  `Op`; the allocation of `add` returns an address that no node of the store has.
* Storage is followed through the objects handed to `free` and `delete` (`Freed`,
  `removeFreed`); `myDijkstraT` is `myDijkstra` with its activations recorded.
-/

namespace Graphs

/-- Address of a node object (`GraphNode<T>*`). -/
abbrev Node := Nat

/-- The structure `GraphLink<T>`: a metric and the node the link leads to. -/
structure GraphLink where
  metric : Int
  next : Node
deriving DecidableEq, Repr

/-- The class `GraphNode<T>`, together with the address the object lives at. -/
structure GraphNode (T : Type) where
  addr : Node
  value : T
  links : List GraphLink
deriving DecidableEq, Repr

/-- The class `Graph<T>`: the vector `nodes`. -/
structure Graph (T : Type) where
  nodes : List (GraphNode T)
deriving DecidableEq, Repr

/-- Ways in which a run of the C++ code leaves the model. -/
inductive Fault where
  | outOfFuel
  | dangling
  | overflow
deriving DecidableEq, Repr

def INT_MIN : Int := -2147483648

def INT_MAX : Int := 2147483647

/-- Addition of two `int`s. -/
def intAdd (a b : Int) : Except Fault Int :=
  if INT_MIN ≤ a + b ∧ a + b ≤ INT_MAX then .ok (a + b) else .error .overflow

variable {T : Type}

/-! ## GraphNode -/

/-- `GraphNode::connectTo`: the created link and the node afterwards. -/
def GraphNode.connectTo (s : GraphNode T) (node : Node) (metric : Int) :
    GraphLink × GraphNode T :=
  let retVal : GraphLink := ⟨metric, node⟩
  (retVal, ⟨s.addr, s.value, s.links ++ [retVal]⟩)

/-- The loop of `GraphNode::getLinkTo` over the link vector. -/
def getLinkToLoop (node : Node) : List GraphLink → Option GraphLink
  | [] => none
  | l :: ls => if l.next = node then some l else getLinkToLoop node ls

/-- `GraphNode::getLinkTo`. -/
def GraphNode.getLinkTo (s : GraphNode T) (node : Node) : Option GraphLink :=
  getLinkToLoop node s.links

/-- The loop of `GraphNode::unconnectTo`: the links that are kept, and `retVal`.  After
`erase(i--)` the iterator stands one place before the erased one and the `i++` of the loop
brings it to the link that moved up, so the loop looks at every link once (also when the
erased link is the first one, where the iterator passes below `begin()` for a moment). -/
def unconnectToLoop (node : Node) : List GraphLink → Bool → List GraphLink × Bool
  | [], retVal => ([], retVal)
  | l :: ls, retVal =>
    if l.next = node then unconnectToLoop node ls true
    else
      let r := unconnectToLoop node ls retVal
      (l :: r.1, r.2)

/-- `GraphNode::unconnectTo`: the returned flag and the node afterwards. -/
def GraphNode.unconnectTo (s : GraphNode T) (node : Node) : Bool × GraphNode T :=
  let r := unconnectToLoop node s.links false
  (r.2, ⟨s.addr, s.value, r.1⟩)

/-! ## Graph -/

/-- The object an address points to, if the store has it. -/
def Graph.deref (g : Graph T) (p : Node) : Option (GraphNode T) :=
  g.nodes.find? (fun n => decide (n.addr = p))

/-- `Graph::Graph`. -/
def Graph.new : Graph T := ⟨[]⟩

/-- `Graph::add`; `p` is the address the allocation returns. -/
def Graph.add (g : Graph T) (item : T) (p : Node) : Node × Graph T :=
  (p, ⟨g.nodes ++ [⟨p, item, []⟩]⟩)

/-- The loop of the second `Graph::getByValue`. -/
def getByValueLoop [DecidableEq T] (value : T) : List (GraphNode T) → List Node → List Node
  | [], retVector => retVector
  | n :: ns, retVector =>
    if n.value = value then getByValueLoop value ns (retVector ++ [n.addr])
    else getByValueLoop value ns retVector

/-- `Graph::getByValue(vector<GraphNode<T>*>*, T)`. -/
def Graph.getByValue [DecidableEq T] (g : Graph T) (retVector : List Node) (value : T) :
    List Node :=
  getByValueLoop value g.nodes retVector

/-- The loop of `Graph::remove`.  The argument `i` is the position of the iterator, `it`
the iterator saved so far (`retVal` is true exactly when it has been set).  The result is
the node vector after the loop and the final `it`.  The node found is released with
`free`; its entry stays in the vector until `erase(it)`. -/
def removeLoop (node : Node) :
    List (GraphNode T) → Nat → Option Nat → List (GraphNode T) × Option Nat
  | [], _, it => ([], it)
  | n :: ns, i, it =>
    if n.addr = node then
      let r := removeLoop node ns (i + 1) (some i)
      (n :: r.1, r.2)
    else
      let r := removeLoop node ns (i + 1) it
      ((n.unconnectTo node).2 :: r.1, r.2)

/-- `Graph::remove`. -/
def Graph.remove (g : Graph T) (node : Node) : Bool × Graph T :=
  match removeLoop node g.nodes 0 none with
  | (ns, some it) => (true, ⟨ns.eraseIdx it⟩)
  | (ns, none) => (false, ⟨ns⟩)

/-- The `for` loop of `Graph::myDijkstra` over `current->links`.  `recur` is the recursive
call, `i` the index of the link at hand; the state is `checked`, `bestTest` (`none` for
`NULL`) and `retVal`. -/
def linksLoop
    (recur : List Nat → List Node → Node → List Node → Except Fault (Int × List Node × List Node))
    (key : List Nat) :
    List GraphLink → Nat → List Node → Option (List Node) → Int →
      Except Fault (List Node × Option (List Node) × Int)
  | [], _, checked, bestTest, retVal => .ok (checked, bestTest, retVal)
  | l :: ls, i, checked, bestTest, retVal =>
    if l.next ∈ checked then linksLoop recur key ls (i + 1) checked bestTest retVal
    else
      match recur (i :: key) checked l.next [l.next] with
      | .error e => .error e
      | .ok (m, checked1, test) =>
        match (if m ≠ -1 then intAdd m l.metric else .ok m) with
        | .error e => .error e
        | .ok currentMetric =>
          if (currentMetric < retVal ∨ retVal = -1) ∧ currentMetric ≠ -1 then
            linksLoop recur key ls (i + 1) checked1 (some test) currentMetric
          else
            linksLoop recur key ls (i + 1) checked1 bestTest retVal

/-- `Graph::myDijkstra(checked, current, best, destination)`.  The result is the returned
`int` together with `checked` and `best` as they are left. -/
def myDijkstra (g : Graph T) (junk : List Nat → Int) :
    Nat → List Nat → List Node → Node → List Node → Node →
      Except Fault (Int × List Node × List Node)
  | 0, _, _, _, _, _ => .error .outOfFuel
  | fuel + 1, key, checked, current, best, destination =>
    if current = destination then .ok (0, checked, best)
    else
      match g.deref current with
      | none => .error .dangling
      | some nd =>
        match linksLoop (fun k c n b => myDijkstra g junk fuel k c n b destination) key
            nd.links 0 (checked ++ [current]) none (junk key) with
        | .error e => .error e
        | .ok (checked1, bestTest, retVal) =>
          match bestTest with
          | some bt => .ok (retVal, checked1.dropLast, best ++ bt)
          | none => .ok (-1, checked1.dropLast, best)

/-- `Graph::dijkstra(vector<GraphNode<T>*>*, GraphNode<T>*, GraphNode<T>*)`: the returned
flag and `retVector` afterwards. -/
def Graph.dijkstraNodes (g : Graph T) (junk : List Nat → Int) (retVector : List Node)
    (node1 node2 : Node) : Except Fault (Bool × List Node) :=
  match myDijkstra g junk (g.nodes.length + 1) [] [] node1 retVector node2 with
  | .error e => .error e
  | .ok (m, _, best) =>
    if m ≠ -1 then .ok (true, node1 :: best) else .ok (false, best)

/-- The loop of the link form of `Graph::dijkstra`,
`retVector->push_back(prev->getLinkTo(prev = (*i)))`.  The order in which `prev` is read
and assigned is left open by the language before C++17: `argFirst` selects the order in
which the assignment comes first. -/
def linkFormLoop (g : Graph T) (argFirst : Bool) :
    List Node → Node → List (Option GraphLink) → Except Fault (List (Option GraphLink))
  | [], _, retVector => .ok retVector
  | i :: rest, prev, retVector =>
    match g.deref (if argFirst then i else prev) with
    | none => .error .dangling
    | some nd => linkFormLoop g argFirst rest i (retVector ++ [nd.getLinkTo i])

/-- `Graph::dijkstra(vector<GraphLink<T>*>*, GraphNode<T>*, GraphNode<T>*)`.  The call
`this->dijkstra(best, node1, node2)` resolves to the node form (`best` is a vector of
nodes); its `bool` result is converted to `int` for the comparison with `-1`. -/
def Graph.dijkstraLinks (g : Graph T) (junk : List Nat → Int) (argFirst : Bool)
    (retVector : List (Option GraphLink)) (node1 node2 : Node) :
    Except Fault (Bool × List (Option GraphLink)) :=
  match g.dijkstraNodes junk [] node1 node2 with
  | .error e => .error e
  | .ok (found, best) =>
    if (if found then (1 : Int) else 0) = -1 then .ok (false, retVector)
    else
      match linkFormLoop g argFirst best node1 retVector with
      | .error e => .error e
      | .ok r => .ok (true, r)

/-- `Graph::dijkstra(GraphNode<T>*, GraphNode<T>*)`. -/
def Graph.dijkstra (g : Graph T) (junk : List Nat → Int) (argFirst : Bool)
    (node1 node2 : Node) : Except Fault (List (Option GraphLink)) :=
  match g.dijkstraLinks junk argFirst [] node1 node2 with
  | .error e => .error e
  | .ok r => .ok r.2

/-! ## Example stores -/

/-- Nodes A, B, C, D (addresses 1 to 4) with A→B(1), A→C(4), B→C(2), B→D(5), C→D(1). -/
def abcd : Graph Char :=
  ⟨[⟨1, 'A', [⟨1, 2⟩, ⟨4, 3⟩]⟩, ⟨2, 'B', [⟨2, 3⟩, ⟨5, 4⟩]⟩, ⟨3, 'C', [⟨1, 4⟩]⟩, ⟨4, 'D', []⟩]⟩

/-- The store `abcd` with a fifth, isolated node E (address 5). -/
def abcde : Graph Char := ⟨abcd.nodes ++ [⟨5, 'E', []⟩]⟩

/-- Nodes A and B (addresses 1 and 2) with the one link A→B(-1). -/
def minusOne : Graph Char := ⟨[⟨1, 'A', [⟨-1, 2⟩]⟩, ⟨2, 'B', []⟩]⟩

/-- A store with the one node A (address 1), which has a link of metric 3 to the
address 9, a node that is not in the store. -/
def strayLink : Graph Char := ⟨[⟨1, 'A', [⟨3, 9⟩]⟩]⟩

/-- A node (address 1) that already has a link of metric 5 to the address 2. -/
def linkedNode : GraphNode Char := ⟨1, 'A', [⟨5, 2⟩]⟩

/-- Nodes A, B, C, D (addresses 1 to 4) with A→B(100), A→C(1), B→D(1), C→D(5). -/
def detour : Graph Char :=
  ⟨[⟨1, 'A', [⟨100, 2⟩, ⟨1, 3⟩]⟩, ⟨2, 'B', [⟨1, 4⟩]⟩, ⟨3, 'C', [⟨5, 4⟩]⟩, ⟨4, 'D', []⟩]⟩

/-- The activation reached through the second link of the first one finds 1 in its
unassigned `retVal` (the value the activation before it, at the same depth, left in its
own `retVal` on `detour`); every other activation finds `-1`. -/
def junkStale : List Nat → Int := fun k => if k = [1] then 1 else -1

/-- Every activation finds `-1` in its unassigned `retVal`. -/
def junkNone : List Nat → Int := fun _ => -1

/-- Every activation finds `0` in its unassigned `retVal`. -/
def junkZero : List Nat → Int := fun _ => 0

/-! ## Paths of the store -/

/-- The link vector of the node at an address (empty when the store has no such node). -/
def Graph.linksOf (g : Graph T) (p : Node) : List GraphLink :=
  match g.deref p with
  | some nd => nd.links
  | none => []

/-- The addresses of the nodes of the store, in the order of the vector. -/
def Graph.addrs (g : Graph T) : List Node := g.nodes.map (fun n => n.addr)

/-- The link-destination invariant: every link of every node of the store leads to a
node of the store. -/
def Graph.Closed (g : Graph T) : Prop :=
  ∀ n ∈ g.nodes, ∀ l ∈ n.links, l.next ∈ g.addrs

/-- There is a link from `u` to `v`. -/
def Linked (g : Graph T) (u v : Node) : Prop := ∃ l ∈ g.linksOf u, l.next = v

/-- The links `ls` lead from `s` to `d`, each one starting where the one before ends. -/
def IsLinkPath (g : Graph T) : Node → List GraphLink → Node → Prop
  | s, [], d => s = d
  | s, l :: ls, d => l ∈ g.linksOf s ∧ IsLinkPath g l.next ls d

/-- The nodes a link path from `s` passes, `s` included. -/
def pathNodes (s : Node) (ls : List GraphLink) : List Node := s :: ls.map (fun l => l.next)

/-- The total metric of a link path. -/
def pathCost (ls : List GraphLink) : Int := (ls.map (fun l => l.metric)).sum

/-- A simple link path from `s` to `d` that stays off the nodes in `checked`. -/
def SimplePath (g : Graph T) (checked : List Node) (s : Node) (ls : List GraphLink)
    (d : Node) : Prop :=
  IsLinkPath g s ls d ∧ (pathNodes s ls).Nodup ∧ ∀ x ∈ pathNodes s ls, x ∉ checked

/-- What `myDijkstra` appends to `best` when it is started at `current` with the visited
list `checked`: a sequence of nodes, each reached from the one before by a link, none of
them visited before, the last one `destination`. -/
def NodePath (g : Graph T) : List Node → Node → List Node → Node → Prop
  | _, current, [], destination => current = destination
  | checked, current, n :: p, destination =>
    current ≠ destination ∧ Linked g current n ∧ n ∉ checked ++ [current] ∧
      NodePath g (checked ++ [current]) n p destination

/-- The node a link vector entry is stripped to by `unconnectTo`. -/
def stripLinks (x : Node) (n : GraphNode T) : GraphNode T :=
  ⟨n.addr, n.value, n.links.filter (fun l => decide (l.next ≠ x))⟩

/-! ## Specifications of the search -/

/-- What a returning recursive call guarantees: `checked` is as before, `best` has grown
by a node path to the destination, or by nothing when `-1` is returned. -/
def RecSound (g : Graph T) (destination : Node)
    (recur : List Nat → List Node → Node → List Node →
      Except Fault (Int × List Node × List Node)) : Prop :=
  ∀ k c n b m c1 b1, recur k c n b = .ok (m, c1, b1) →
    c1 = c ∧ ∃ p, b1 = b ++ p ∧ (m = -1 → p = []) ∧ (m ≠ -1 → NodePath g c n p destination)

/-- No simple path to `destination` has total metric `-1`, and the total of every one of
them is an `int`. -/
def PathSumsOk (g : Graph T) (destination : Node) : Prop :=
  ∀ s ls, SimplePath g [] s ls destination →
    pathCost ls ≠ -1 ∧ INT_MIN ≤ pathCost ls ∧ pathCost ls ≤ INT_MAX

/-- The pair `(m, p)` is the outcome of an exhaustive search from `current`: either there
is no simple path and `m` is `-1`, or `p` is the node sequence of a simple path of total
metric `m` and no simple path is cheaper. -/
def MinResult (g : Graph T) (checked : List Node) (current destination : Node) (m : Int)
    (p : List Node) : Prop :=
  (m = -1 ∧ p = [] ∧ ∀ ls, ¬ SimplePath g checked current ls destination) ∨
  (m ≠ -1 ∧ ∃ ls, SimplePath g checked current ls destination ∧
    ls.map (fun l => l.next) = p ∧ pathCost ls = m ∧
    ∀ ls1, SimplePath g checked current ls1 destination → m ≤ pathCost ls1)

/-- The state of the loop is consistent: `bestTest` is `NULL` and `retVal` is `-1`, or
`bestTest` is the node sequence of a simple path of total metric `retVal`. -/
def LoopGood (g : Graph T) (checked : List Node) (current destination : Node)
    (bt : Option (List Node)) (r : Int) : Prop :=
  (bt = none → r = -1) ∧
  ∀ t, bt = some t → r ≠ -1 ∧ ∃ ls, SimplePath g checked current ls destination ∧
    ls.map (fun l => l.next) = t ∧ pathCost ls = r

/-! ## Deciding paths -/

instance IsLinkPath.decidable (g : Graph T) :
    ∀ (ls : List GraphLink) (s d : Node), Decidable (IsLinkPath g s ls d)
  | [], s, d => inferInstanceAs (Decidable (s = d))
  | l :: ls, s, d =>
    have := IsLinkPath.decidable g ls l.next d
    inferInstanceAs (Decidable (l ∈ g.linksOf s ∧ IsLinkPath g l.next ls d))

instance SimplePath.decidable (g : Graph T) (checked : List Node) (s : Node)
    (ls : List GraphLink) (d : Node) : Decidable (SimplePath g checked s ls d) :=
  inferInstanceAs (Decidable (IsLinkPath g s ls d ∧ (pathNodes s ls).Nodup ∧
    ∀ x ∈ pathNodes s ls, x ∉ checked))

instance Graph.Closed.decidable (g : Graph T) : Decidable g.Closed :=
  inferInstanceAs (Decidable (∀ n ∈ g.nodes, ∀ l ∈ n.links, l.next ∈ g.addrs))

/-! ## Member functions of a node, seen from the store -/

/-- The store after a member function of `GraphNode` has run on the node object at the
address `s`: the object is replaced by what the function leaves, the other objects are not
touched. -/
def Graph.onNode (g : Graph T) (s : Node) (f : GraphNode T → GraphNode T) : Graph T :=
  ⟨g.nodes.map (fun n => if n.addr = s then f n else n)⟩

/-- The store after `s->connectTo(d, m)`. -/
def Graph.connectTo (g : Graph T) (s d : Node) (m : Int) : Graph T :=
  g.onNode s (fun n => (n.connectTo d m).2)

/-- The store after `s->unconnectTo(d)`. -/
def Graph.unconnectTo (g : Graph T) (s d : Node) : Graph T :=
  g.onNode s (fun n => (n.unconnectTo d).2)

/-! ## Sequences of calls -/

/-- The calls that change a store.  For `add`, `p` is the address the allocation
returns. -/
inductive Op (T : Type) where
  | add (item : T) (p : Node)
  | remove (x : Node)
  | connectTo (s d : Node) (m : Int)
  | unconnectTo (s d : Node)

/-- The store after a call. -/
def Graph.apply (g : Graph T) : Op T → Graph T
  | .add item p => (g.add item p).2
  | .remove x => (g.remove x).2
  | .connectTo s d m => g.connectTo s d m
  | .unconnectTo s d => g.unconnectTo s d

/-- The store after a sequence of calls. -/
def Graph.run (g : Graph T) : List (Op T) → Graph T
  | [] => g
  | op :: ops => (g.apply op).run ops

/-- A call the store admits: the allocation of `add` returns an address that no node of
the store has, and `connectTo` is called on a node of the store with a node of the store
as destination. -/
def Graph.Admits (g : Graph T) : Op T → Prop
  | .add _ p => p ∉ g.addrs
  | .remove _ => True
  | .connectTo s d _ => s ∈ g.addrs ∧ d ∈ g.addrs
  | .unconnectTo _ _ => True

/-- Every call of the sequence is admitted by the store it is made on. -/
def Graph.AdmitsAll (g : Graph T) : List (Op T) → Prop
  | [] => True
  | op :: ops => g.Admits op ∧ (g.apply op).AdmitsAll ops

/-- The address and payload of every node of the store, in the order of the vector. -/
def Graph.entries (g : Graph T) : List (Node × T) := g.nodes.map (fun n => (n.addr, n.value))

/-- The nodes in the order in which they were added, as the calls tell it: `add` puts
the new node last, `remove` takes the node out, the other calls change nothing. -/
def insertionOrder (acc : List (Node × T)) : List (Op T) → List (Node × T)
  | [] => acc
  | .add item p :: ops => insertionOrder (acc ++ [(p, item)]) ops
  | .remove x :: ops => insertionOrder (acc.filter (fun e => decide (e.1 ≠ x))) ops
  | .connectTo _ _ _ :: ops => insertionOrder acc ops
  | .unconnectTo _ _ :: ops => insertionOrder acc ops

/-! ## Released objects -/

/-- An object handed to `free` or `delete`: a node object, or a link object, named by the
node whose link vector held it and by its fields. -/
inductive Freed where
  | node (p : Node)
  | link (owner : Node) (l : GraphLink)
deriving DecidableEq, Repr

/-- The links `GraphNode::unconnectTo` hands to `free`, in the order of the loop. -/
def unconnectToFreed (node : Node) : List GraphLink → List GraphLink
  | [] => []
  | l :: ls =>
    if l.next = node then l :: unconnectToFreed node ls else unconnectToFreed node ls

/-- The objects the loop of `Graph::remove` releases, in the order of the loop.  The node
found is released with `free(node)`: the storage of the node object goes, no destructor
runs.  On every other node `unconnectTo(node)` releases the links that lead to `node`. -/
def removeFreed (node : Node) : List (GraphNode T) → List Freed
  | [] => []
  | n :: ns =>
    if n.addr = node then Freed.node node :: removeFreed node ns
    else (unconnectToFreed node n.links).map (Freed.link n.addr) ++ removeFreed node ns

/-- `GraphNode::~GraphNode`: every link of the node is handed to `free`. -/
def GraphNode.destructorFreed (n : GraphNode T) : List Freed :=
  n.links.map (Freed.link n.addr)

/-- `Graph::~Graph`: `delete` on every node, which runs the destructor of the node and
then releases the node object. -/
def Graph.destructorFreed (g : Graph T) : List Freed :=
  g.nodes.flatMap (fun n => n.destructorFreed ++ [Freed.node n.addr])

/-- Nodes A and B (addresses 1 and 2) with the one link A→B(1). -/
def oneLink : Graph Char := ⟨[⟨1, 'A', [⟨1, 2⟩]⟩, ⟨2, 'B', []⟩]⟩

/-- Nodes A, B, C, D (addresses 1 to 4) with A→B(1), A→C(1), B→D(1), C→D(1): two paths
from A to D, both of total metric 2. -/
def tie : Graph Char :=
  ⟨[⟨1, 'A', [⟨1, 2⟩, ⟨1, 3⟩]⟩, ⟨2, 'B', [⟨1, 4⟩]⟩, ⟨3, 'C', [⟨1, 4⟩]⟩, ⟨4, 'D', []⟩]⟩

/-- The activation reached through the first link of the first one finds 0 in its
unassigned `retVal`; every other activation finds `-1`. -/
def junkFirstBranch : List Nat → Int := fun k => if k = [0] then 0 else -1

/-! ## The search with its activations recorded -/

/-- The loop `linksLoop`, which also records the activations of `myDijkstra` it starts:
for each one the pair of `checked` and `current` it is entered with, in the order of
entry. -/
def linksLoopT
    (recur : List Nat → List Node → Node → List Node →
      List (List Node × Node) × Except Fault (Int × List Node × List Node))
    (key : List Nat) :
    List GraphLink → Nat → List Node → Option (List Node) → Int →
      List (List Node × Node) × Except Fault (List Node × Option (List Node) × Int)
  | [], _, checked, bestTest, retVal => ([], .ok (checked, bestTest, retVal))
  | l :: ls, i, checked, bestTest, retVal =>
    if l.next ∈ checked then linksLoopT recur key ls (i + 1) checked bestTest retVal
    else
      match recur (i :: key) checked l.next [l.next] with
      | (t, .error e) => (t, .error e)
      | (t, .ok (m, checked1, test)) =>
        match (if m ≠ -1 then intAdd m l.metric else .ok m) with
        | .error e => (t, .error e)
        | .ok currentMetric =>
          if (currentMetric < retVal ∨ retVal = -1) ∧ currentMetric ≠ -1 then
            let r := linksLoopT recur key ls (i + 1) checked1 (some test) currentMetric
            (t ++ r.1, r.2)
          else
            let r := linksLoopT recur key ls (i + 1) checked1 bestTest retVal
            (t ++ r.1, r.2)

/-- The function `myDijkstra`, which also records its activations: the one at hand
first, then the ones its loop starts. -/
def myDijkstraT (g : Graph T) (junk : List Nat → Int) :
    Nat → List Nat → List Node → Node → List Node → Node →
      List (List Node × Node) × Except Fault (Int × List Node × List Node)
  | 0, _, checked, current, _, _ => ([(checked, current)], .error .outOfFuel)
  | fuel + 1, key, checked, current, best, destination =>
    if current = destination then ([(checked, current)], .ok (0, checked, best))
    else
      match g.deref current with
      | none => ([(checked, current)], .error .dangling)
      | some nd =>
        let r := linksLoopT (fun k c n b => myDijkstraT g junk fuel k c n b destination) key
          nd.links 0 (checked ++ [current]) none (junk key)
        ((checked, current) :: r.1,
          match r.2 with
          | .error e => .error e
          | .ok (checked1, bestTest, retVal) =>
            match bestTest with
            | some bt => .ok (retVal, checked1.dropLast, best ++ bt)
            | none => .ok (-1, checked1.dropLast, best))

/-- The visited list `c` and the node `cur` of an activation of a search started at
`node1`: the visited nodes are pairwise distinct, `cur` is not among them, and the visited
nodes followed by `cur` are the nodes of a link path from `node1`. -/
def ActivationOk (g : Graph T) (node1 : Node) (c : List Node) (cur : Node) : Prop :=
  c.Nodup ∧ cur ∉ c ∧ ∃ ls, IsLinkPath g node1 ls cur ∧ pathNodes node1 ls = c ++ [cur]

/-! ## Link positions and the tie-break -/

/-- The links at the given positions: the link at position `i` of the link vector of `s`,
then the links at the remaining positions, counted in the vectors of the nodes the path
comes to.  `none` when a position is not in the vector. -/
def posPath (g : Graph T) : Node → List Nat → Option (List GraphLink)
  | _, [] => some []
  | s, i :: is =>
    match (g.linksOf s)[i]? with
    | none => none
    | some l => (posPath g l.next is).map (fun ls => l :: ls)

/-- The lexicographic order on sequences of link positions. -/
def lexLe : List Nat → List Nat → Bool
  | [], _ => true
  | _ :: _, [] => false
  | a :: as, b :: bs => decide (a < b) || (decide (a = b) && lexLe as bs)

/-- The pair `(m, p)` is the outcome of an exhaustive search from `current` that breaks
ties by link order: either there is no simple path and `m` is `-1`, or `p` is the node
sequence of a simple path of total metric `m`, no simple path is cheaper, and among the
simple paths of total metric `m` its sequence of link positions is the smallest. -/
def LexResult (g : Graph T) (checked : List Node) (current destination : Node) (m : Int)
    (p : List Node) : Prop :=
  (m = -1 ∧ p = [] ∧ ∀ ls, ¬ SimplePath g checked current ls destination) ∨
  (m ≠ -1 ∧ ∃ is ls, posPath g current is = some ls ∧
    SimplePath g checked current ls destination ∧
    ls.map (fun l => l.next) = p ∧ pathCost ls = m ∧
    ∀ js ls1, posPath g current js = some ls1 →
      SimplePath g checked current ls1 destination →
      m ≤ pathCost ls1 ∧ (pathCost ls1 = m → lexLe is js = true))

/-- The state of the loop after the links at the positions below `i`: `bestTest` is
`NULL`, `retVal` is `-1` and no simple path starts with one of these links; or `bestTest`
is the node sequence of a simple path of total metric `retVal` that starts with one of
them, and among the simple paths that start with one of them none is cheaper and none of
the same total has a smaller sequence of positions. -/
def LexInv (g : Graph T) (checked : List Node) (current destination : Node) (i : Nat)
    (bt : Option (List Node)) (r : Int) : Prop :=
  (bt = none → r = -1 ∧ ∀ j js ls1, j < i → posPath g current (j :: js) = some ls1 →
    ¬ SimplePath g checked current ls1 destination) ∧
  ∀ t, bt = some t → r ≠ -1 ∧ ∃ j0 is ls, j0 < i ∧
    posPath g current (j0 :: is) = some ls ∧
    SimplePath g checked current ls destination ∧
    ls.map (fun l => l.next) = t ∧ pathCost ls = r ∧
    ∀ j js ls1, j < i → posPath g current (j :: js) = some ls1 →
      SimplePath g checked current ls1 destination →
      r ≤ pathCost ls1 ∧ (pathCost ls1 = r → lexLe (j0 :: is) (j :: js) = true)

/-- A sequence of calls on the empty store: three nodes are added, the first is linked to
the second, the second is removed, and a fourth node is added at the address the second
one had. -/
def sampleCalls : List (Op Char) :=
  [.add 'x' 1, .add 'y' 2, .add 'x' 3, .connectTo 1 2 5, .remove 2, .add 'x' 2]

instance Graph.Admits.decidable (g : Graph T) : ∀ op : Op T, Decidable (g.Admits op)
  | .add _ p => inferInstanceAs (Decidable (p ∉ g.addrs))
  | .remove _ => inferInstanceAs (Decidable True)
  | .connectTo s d _ => inferInstanceAs (Decidable (s ∈ g.addrs ∧ d ∈ g.addrs))
  | .unconnectTo _ _ => inferInstanceAs (Decidable True)

instance Graph.AdmitsAll.decidable :
    ∀ (ops : List (Op T)) (g : Graph T), Decidable (g.AdmitsAll ops)
  | [], _ => inferInstanceAs (Decidable True)
  | op :: ops, g =>
    have := Graph.AdmitsAll.decidable ops (g.apply op)
    inferInstanceAs (Decidable (g.Admits op ∧ (g.apply op).AdmitsAll ops))

/-! ## GraphNode: links -/

theorem unconnectToLoop_fst (x : Node) (ls : List GraphLink) (b : Bool) :
    (unconnectToLoop x ls b).1 = ls.filter (fun l => decide (l.next ≠ x)) := by
  induction ls generalizing b with
  | nil => rfl
  | cons l ls ih =>
    by_cases h : l.next = x
    · simp [unconnectToLoop, h, ih]
    · simp [unconnectToLoop, h, ih]

theorem unconnectTo_snd (x : Node) (n : GraphNode T) : (n.unconnectTo x).2 = stripLinks x n := by
  simp [GraphNode.unconnectTo, stripLinks, unconnectToLoop_fst]

theorem getLinkToLoop_eq_none (x : Node) (ls : List GraphLink) :
    getLinkToLoop x ls = none ↔ ∀ l ∈ ls, l.next ≠ x := by
  induction ls with
  | nil => simp [getLinkToLoop]
  | cons l ls ih =>
    by_cases h : l.next = x
    · simp [getLinkToLoop, h]
    · simp [getLinkToLoop, h, ih]

theorem getLinkToLoop_append (x : Node) (ls ms : List GraphLink) :
    getLinkToLoop x (ls ++ ms) =
      match getLinkToLoop x ls with
      | some l => some l
      | none => getLinkToLoop x ms := by
  induction ls with
  | nil => simp [getLinkToLoop]
  | cons l ls ih =>
    by_cases h : l.next = x
    · simp [getLinkToLoop, h]
    · simp [getLinkToLoop, h, ih]

theorem getLinkToLoop_next (x : Node) (ls : List GraphLink) (l : GraphLink)
    (h : getLinkToLoop x ls = some l) : l.next = x := by
  induction ls with
  | nil => simp [getLinkToLoop] at h
  | cons a ls ih =>
    by_cases ha : a.next = x
    · simp [getLinkToLoop, ha] at h
      rw [← h]; exact ha
    · simp [getLinkToLoop, ha] at h
      exact ih h

theorem stripLinks_getLinkTo (x : Node) (n : GraphNode T) :
    (stripLinks x n).getLinkTo x = none := by
  simp [GraphNode.getLinkTo, stripLinks, getLinkToLoop_eq_none]

theorem stripLinks_of_no_link (x : Node) (n : GraphNode T) (h : ∀ l ∈ n.links, l.next ≠ x) :
    stripLinks x n = n := by
  cases n with
  | mk a v ls =>
    simp only [stripLinks, GraphNode.mk.injEq, true_and]
    exact List.filter_eq_self.mpr (fun l hl => by simpa using h l hl)

/-! ## Graph::remove -/

theorem removeLoop_fst (x : Node) (ns : List (GraphNode T)) (i : Nat) (it : Option Nat) :
    (removeLoop x ns i it).1 = ns.map (fun n => if n.addr = x then n else stripLinks x n) := by
  induction ns generalizing i it with
  | nil => rfl
  | cons n ns ih =>
    by_cases h : n.addr = x
    · simp [removeLoop, h, ih]
    · simp [removeLoop, h, ih, unconnectTo_snd]

theorem removeLoop_snd_of_not_mem (x : Node) (ns : List (GraphNode T)) (i : Nat)
    (it : Option Nat) (h : x ∉ ns.map (fun n => n.addr)) : (removeLoop x ns i it).2 = it := by
  induction ns generalizing i it with
  | nil => rfl
  | cons n ns ih =>
    simp only [List.map_cons, List.mem_cons, not_or] at h
    have hn : ¬ n.addr = x := fun e => h.1 e.symm
    simp [removeLoop, hn, ih (i + 1) it h.2]

theorem map_strip_of_not_mem (x : Node) (ns : List (GraphNode T))
    (h : x ∉ ns.map (fun n => n.addr)) :
    ns.map (fun n => if n.addr = x then n else stripLinks x n) = ns.map (stripLinks x) := by
  apply List.map_congr_left
  intro n hn
  have : ¬ n.addr = x := fun e => h (by rw [← e]; exact List.mem_map_of_mem _ hn)
  simp [this]

theorem filter_of_not_mem (x : Node) (ns : List (GraphNode T))
    (h : x ∉ ns.map (fun n => n.addr)) :
    ns.filter (fun n => decide (n.addr ≠ x)) = ns := by
  apply List.filter_eq_self.mpr
  intro n hn
  have : ¬ n.addr = x := fun e => h (by rw [← e]; exact List.mem_map_of_mem _ hn)
  simpa using this

theorem removeLoop_owned (x : Node) (ns : List (GraphNode T)) (i : Nat) (it : Option Nat)
    (hnd : (ns.map (fun n => n.addr)).Nodup) (hx : x ∈ ns.map (fun n => n.addr)) :
    ∃ k, (removeLoop x ns i it).2 = some (i + k) ∧
      (ns.map (fun n => if n.addr = x then n else stripLinks x n)).eraseIdx k =
        (ns.filter (fun n => decide (n.addr ≠ x))).map (stripLinks x) := by
  induction ns generalizing i it with
  | nil => simp at hx
  | cons n ns ih =>
    simp only [List.map_cons, List.nodup_cons] at hnd
    by_cases h : n.addr = x
    · have hnot : x ∉ ns.map (fun n => n.addr) := by rw [← h]; exact hnd.1
      refine ⟨0, ?_, ?_⟩
      · simp [removeLoop, h, removeLoop_snd_of_not_mem x ns (i + 1) (some i) hnot]
      · have e1 : (n :: ns).filter (fun n => decide (n.addr ≠ x)) = ns := by
          rw [List.filter_cons_of_neg (by simpa using h), filter_of_not_mem x ns hnot]
        rw [e1]
        simp [h, map_strip_of_not_mem x ns hnot]
    · have hx2 : x ∈ ns.map (fun n => n.addr) := by
        simp only [List.map_cons, List.mem_cons] at hx
        rcases hx with hx | hx
        · exact absurd hx.symm h
        · exact hx
      obtain ⟨k, hk1, hk2⟩ := ih (i + 1) it hnd.2 hx2
      refine ⟨k + 1, ?_, ?_⟩
      · simp [removeLoop, h, hk1]; omega
      · simp [h, hk2]

theorem remove_owned (g : Graph T) (x : Node) (hnd : g.addrs.Nodup) (hx : x ∈ g.addrs) :
    g.remove x =
      (true, ⟨(g.nodes.filter (fun n => decide (n.addr ≠ x))).map (stripLinks x)⟩) := by
  obtain ⟨k, hk1, hk2⟩ := removeLoop_owned x g.nodes 0 none hnd hx
  have h1 := removeLoop_fst x g.nodes 0 none
  unfold Graph.remove
  generalize removeLoop x g.nodes 0 none = r at hk1 h1
  obtain ⟨r1, r2⟩ := r
  simp only at hk1 h1
  subst hk1 h1
  simp [hk2]

theorem remove_not_owned (g : Graph T) (x : Node) (hx : x ∉ g.addrs) :
    g.remove x = (false, ⟨g.nodes.map (stripLinks x)⟩) := by
  have h2 := removeLoop_snd_of_not_mem x g.nodes 0 none hx
  have h1 := removeLoop_fst x g.nodes 0 none
  unfold Graph.remove
  generalize removeLoop x g.nodes 0 none = r at h2 h1
  obtain ⟨r1, r2⟩ := r
  simp only at h2 h1
  subst h2 h1
  simp [map_strip_of_not_mem x g.nodes hx]

/-! ## Graph::myDijkstra: what a returning call leaves behind -/

theorem linksOf_of_deref (g : Graph T) (p : Node) (nd : GraphNode T)
    (h : g.deref p = some nd) : g.linksOf p = nd.links := by
  simp [Graph.linksOf, h]

theorem linksLoop_sound (g : Graph T) (destination : Node)
    (recur : List Nat → List Node → Node → List Node →
      Except Fault (Int × List Node × List Node))
    (hrec : RecSound g destination recur) (key : List Nat) (checked : List Node)
    (current : Node) (hcur : current ≠ destination) (ls : List GraphLink)
    (hls : ∀ l ∈ ls, l ∈ g.linksOf current) (i : Nat) (bestTest : Option (List Node))
    (retVal : Int)
    (hinv : ∀ bt, bestTest = some bt → retVal ≠ -1 ∧ NodePath g checked current bt destination)
    (c1 : List Node) (bt1 : Option (List Node)) (r1 : Int)
    (h : linksLoop recur key ls i (checked ++ [current]) bestTest retVal = .ok (c1, bt1, r1)) :
    c1 = checked ++ [current] ∧
      ∀ bt, bt1 = some bt → r1 ≠ -1 ∧ NodePath g checked current bt destination := by
  induction ls generalizing i bestTest retVal with
  | nil =>
    simp only [linksLoop, Except.ok.injEq, Prod.mk.injEq] at h
    obtain ⟨rfl, rfl, rfl⟩ := h
    exact ⟨rfl, hinv⟩
  | cons l ls ih =>
    have hls2 : ∀ a ∈ ls, a ∈ g.linksOf current := fun a ha => hls a (List.mem_cons_of_mem _ ha)
    rw [linksLoop] at h
    split at h
    · exact ih hls2 _ _ _ hinv h
    · rename_i hnot
      split at h
      · exact absurd h (by simp)
      · rename_i m c2 test hr
        obtain ⟨rfl, p, rfl, hp1, hp2⟩ := hrec _ _ _ _ _ _ _ hr
        split at h
        · exact absurd h (by simp)
        · rename_i cm hcm
          split at h
          · rename_i hacc
            refine ih hls2 _ _ _ ?_ h
            intro bt hbt
            simp only [Option.some.injEq] at hbt
            subst hbt
            refine ⟨hacc.2, ?_⟩
            have hm : m ≠ -1 := by
              intro e
              rw [e] at hcm
              simp at hcm
              exact hacc.2 hcm.symm
            exact ⟨hcur, ⟨l, hls l (List.mem_cons_self _ _), rfl⟩, hnot, hp2 hm⟩
          · exact ih hls2 _ _ _ hinv h

theorem myDijkstra_sound (g : Graph T) (junk : List Nat → Int) (destination : Node)
    (fuel : Nat) :
    RecSound g destination (fun k c n b => myDijkstra g junk fuel k c n b destination) := by
  induction fuel with
  | zero =>
    intro k c n b m c1 b1 h
    simp [myDijkstra] at h
  | succ fuel ih =>
    intro k c n b m c1 b1 h
    simp only at h
    rw [myDijkstra] at h
    split at h
    · rename_i heq
      simp only [Except.ok.injEq, Prod.mk.injEq] at h
      obtain ⟨rfl, rfl, rfl⟩ := h
      exact ⟨rfl, [], by simp, by simp, fun _ => heq⟩
    · rename_i hne
      split at h
      · exact absurd h (by simp)
      · rename_i nd hnd
        split at h
        · exact absurd h (by simp)
        · rename_i c2 bt2 r2 hloop
          have hl := linksLoop_sound g destination _ ih k c n hne nd.links
            (by intro l hl; rw [linksOf_of_deref g n nd hnd]; exact hl) 0 none (junk k)
            (by simp) c2 bt2 r2 hloop
          obtain ⟨rfl, hbt⟩ := hl
          split at h
          · rename_i bt
            simp only [Except.ok.injEq, Prod.mk.injEq] at h
            obtain ⟨rfl, rfl, rfl⟩ := h
            obtain ⟨h1, h2⟩ := hbt bt rfl
            exact ⟨by simp, bt, rfl, fun e => absurd e h1, fun _ => h2⟩
          · simp only [Except.ok.injEq, Prod.mk.injEq] at h
            obtain ⟨rfl, rfl, rfl⟩ := h
            exact ⟨by simp, [], by simp, fun _ => rfl, fun e => absurd rfl e⟩

/-! ## Node paths -/

theorem NodePath.avoids {g : Graph T} {destination : Node} :
    ∀ {p : List Node} {checked : List Node} {current : Node},
      NodePath g checked current p destination →
        ∀ x ∈ p, x ∉ checked ∧ x ≠ current := by
  intro p
  induction p with
  | nil => intro _ _ _ x hx; simp at hx
  | cons n p ih =>
    intro checked current h x hx
    obtain ⟨_, _, h3, h4⟩ := h
    simp only [List.mem_append, List.mem_singleton, not_or] at h3
    rcases List.mem_cons.mp hx with rfl | hx
    · exact h3
    · have := ih h4 x hx
      simp only [List.mem_append, List.mem_singleton, not_or] at this
      exact this.1

theorem NodePath.nodup {g : Graph T} {destination : Node} :
    ∀ {p : List Node} {checked : List Node} {current : Node},
      NodePath g checked current p destination → p.Nodup := by
  intro p
  induction p with
  | nil => intro _ _ _; exact List.nodup_nil
  | cons n p ih =>
    intro checked current h
    obtain ⟨_, _, _, h4⟩ := h
    refine List.nodup_cons.mpr ⟨?_, ih h4⟩
    intro hn
    exact (NodePath.avoids h4 n hn).2 rfl

theorem NodePath.chain {g : Graph T} {destination : Node} :
    ∀ {p : List Node} {checked : List Node} {current : Node},
      NodePath g checked current p destination → List.Chain (Linked g) current p := by
  intro p
  induction p with
  | nil => intro _ _ _; exact List.Chain.nil
  | cons n p ih =>
    intro checked current h
    obtain ⟨_, h2, _, h4⟩ := h
    exact List.Chain.cons h2 (ih h4)

theorem NodePath.getLast {g : Graph T} {destination : Node} :
    ∀ {p : List Node} {checked : List Node} {current : Node},
      NodePath g checked current p destination →
        (current :: p).getLast? = some destination := by
  intro p
  induction p with
  | nil =>
    intro _ current h
    have h1 : current = destination := h
    simp [h1]
  | cons n p ih =>
    intro checked current h
    obtain ⟨_, _, _, h4⟩ := h
    have := ih h4
    rw [List.getLast?_cons_cons]
    exact this

theorem NodePath.to_simplePath {g : Graph T} {destination : Node} :
    ∀ {p : List Node} {checked : List Node} {current : Node},
      NodePath g checked current p destination → current ∉ checked →
        ∃ ls, SimplePath g checked current ls destination ∧ ls.map (fun l => l.next) = p := by
  intro p
  induction p with
  | nil =>
    intro checked current h hc
    have h1 : current = destination := h
    exact ⟨[], ⟨h1, by simp [pathNodes], by simpa [pathNodes] using hc⟩, rfl⟩
  | cons n p ih =>
    intro checked current h hc
    obtain ⟨_, ⟨l, hl, rfl⟩, h3, h4⟩ := h
    obtain ⟨ls, ⟨q1, q2, q3⟩, rfl⟩ := ih h4 h3
    refine ⟨l :: ls, ⟨⟨hl, q1⟩, ?_, ?_⟩, rfl⟩
    · have : pathNodes current (l :: ls) = current :: pathNodes l.next ls := rfl
      rw [this]
      refine List.nodup_cons.mpr ⟨?_, q2⟩
      intro hmem
      exact q3 current hmem (by simp)
    · have : pathNodes current (l :: ls) = current :: pathNodes l.next ls := rfl
      rw [this]
      intro x hx
      rcases List.mem_cons.mp hx with rfl | hx
      · exact hc
      · intro hxc
        exact q3 x hx (by simp [hxc])

/-- A simple path through a first link, seen from the node the link starts at. -/
theorem SimplePath.cons {g : Graph T} {checked : List Node} {current destination : Node}
    {l : GraphLink} {ls : List GraphLink} (hl : l ∈ g.linksOf current)
    (hc : current ∉ checked) (h : SimplePath g (checked ++ [current]) l.next ls destination) :
    SimplePath g checked current (l :: ls) destination := by
  obtain ⟨q1, q2, q3⟩ := h
  have e : pathNodes current (l :: ls) = current :: pathNodes l.next ls := rfl
  refine ⟨⟨hl, q1⟩, ?_, ?_⟩
  · rw [e]
    refine List.nodup_cons.mpr ⟨?_, q2⟩
    intro hmem
    exact q3 current hmem (by simp)
  · rw [e]
    intro x hx
    rcases List.mem_cons.mp hx with rfl | hx
    · exact hc
    · intro hxc
      exact q3 x hx (by simp [hxc])

/-- The rest of a simple path after its first link. -/
theorem SimplePath.tail {g : Graph T} {checked : List Node} {current destination : Node}
    {l : GraphLink} {ls : List GraphLink}
    (h : SimplePath g checked current (l :: ls) destination) :
    l ∈ g.linksOf current ∧ l.next ∉ checked ++ [current] ∧
      SimplePath g (checked ++ [current]) l.next ls destination := by
  obtain ⟨⟨hl, q1⟩, q2, q3⟩ := h
  have e : pathNodes current (l :: ls) = current :: pathNodes l.next ls := rfl
  rw [e] at q2 q3
  have q2a := (List.nodup_cons.mp q2)
  have hav : ∀ x ∈ pathNodes l.next ls, x ∉ checked ++ [current] := by
    intro x hx hmem
    rcases List.mem_append.mp hmem with hm | hm
    · exact q3 x (List.mem_cons_of_mem _ hx) hm
    · simp only [List.mem_singleton] at hm
      subst hm
      exact q2a.1 hx
  refine ⟨hl, hav l.next (by simp [pathNodes]), q1, q2a.2, hav⟩

/-! ## The store: addresses -/

theorem deref_of_mem_addrs (g : Graph T) (p : Node) (h : p ∈ g.addrs) :
    ∃ nd, g.deref p = some nd ∧ nd ∈ g.nodes := by
  simp only [Graph.addrs, List.mem_map] at h
  obtain ⟨n, hn, rfl⟩ := h
  cases hf : g.deref n.addr with
  | none =>
    simp only [Graph.deref, List.find?_eq_none] at hf
    exact absurd (hf n hn) (by simp)
  | some nd =>
    exact ⟨nd, rfl, List.mem_of_find?_eq_some hf⟩

theorem mem_addrs_of_deref (g : Graph T) (p : Node) (nd : GraphNode T)
    (h : g.deref p = some nd) : p ∈ g.addrs ∧ nd ∈ g.nodes := by
  have h1 := List.mem_of_find?_eq_some h
  have h2 := List.find?_some h
  simp only [decide_eq_true_eq] at h2
  exact ⟨by rw [← h2]; exact List.mem_map_of_mem _ h1, h1⟩

theorem length_lt_of_not_mem (g : Graph T) (checked : List Node) (current : Node)
    (hnd : checked.Nodup) (hsub : ∀ x ∈ checked, x ∈ g.addrs) (hcur : current ∈ g.addrs)
    (hc : current ∉ checked) : checked.length + 1 ≤ g.nodes.length := by
  have h1 : (current :: checked).Nodup := List.nodup_cons.mpr ⟨hc, hnd⟩
  have h2 : (current :: checked) ⊆ g.addrs := by
    intro x hx
    rcases List.mem_cons.mp hx with rfl | hx
    · exact hcur
    · exact hsub x hx
  have h3 := (h1.subperm h2).length_le
  simpa [Graph.addrs] using h3

/-! ## Fuel -/

theorem linksLoop_fuel (g : Graph T) (destination : Node)
    (recur : List Nat → List Node → Node → List Node →
      Except Fault (Int × List Node × List Node))
    (hs : RecSound g destination recur) (key : List Nat) (cs : List Node)
    (hrec : ∀ k n b, n ∉ cs → recur k cs n b ≠ .error .outOfFuel)
    (ls : List GraphLink) (i : Nat) (bt : Option (List Node)) (r : Int) :
    linksLoop recur key ls i cs bt r ≠ .error .outOfFuel := by
  induction ls generalizing i bt r with
  | nil => simp [linksLoop]
  | cons l ls ih =>
    rw [linksLoop]
    split
    · exact ih _ _ _
    · rename_i hnot
      split
      · rename_i e he
        intro hcontra
        simp only [Except.error.injEq] at hcontra
        subst hcontra
        exact hrec _ _ _ hnot he
      · rename_i m c2 test hr
        obtain ⟨rfl, _⟩ := hs _ _ _ _ _ _ _ hr
        split
        · rename_i e he
          intro hcontra
          simp only [Except.error.injEq] at hcontra
          subst hcontra
          split at he
          · simp only [intAdd] at he
            split at he <;> simp at he
          · simp at he
        · split
          · exact ih _ _ _
          · exact ih _ _ _

theorem myDijkstra_fuel (g : Graph T) (junk : List Nat → Int) (destination : Node) :
    ∀ (fuel : Nat) (key : List Nat) (checked : List Node) (current : Node) (best : List Node),
      checked.Nodup → (∀ x ∈ checked, x ∈ g.addrs) → current ∉ checked →
      g.nodes.length + 1 ≤ fuel + checked.length →
      myDijkstra g junk fuel key checked current best destination ≠ .error .outOfFuel := by
  intro fuel
  induction fuel with
  | zero =>
    intro key checked current best hnd hsub hc hf
    have h3 := (hnd.subperm (fun x hx => hsub x hx)).length_le
    simp only [Graph.addrs, List.length_map] at h3
    omega
  | succ fuel ih =>
    intro key checked current best hnd hsub hc hf
    rw [myDijkstra]
    split
    · simp
    · split
      · simp
      · rename_i nd hnd2
        have hcur := (mem_addrs_of_deref g current nd hnd2).1
        have hl := linksLoop_fuel g destination _ (myDijkstra_sound g junk destination fuel)
          key (checked ++ [current])
          (by
            intro k n b hn
            refine ih k (checked ++ [current]) n b ?_ ?_ hn ?_
            · exact List.nodup_append.mpr ⟨hnd, List.nodup_singleton _, by
                intro x hx1 hx2
                simp only [List.mem_singleton] at hx2
                subst hx2
                exact hc hx1⟩
            · intro x hx
              rcases List.mem_append.mp hx with hx | hx
              · exact hsub x hx
              · simp only [List.mem_singleton] at hx
                subst hx
                exact hcur
            · simp only [List.length_append, List.length_singleton]
              omega)
          nd.links 0 none (junk key)
        split
        · rename_i e he
          intro hcontra
          simp only [Except.error.injEq] at hcontra
          subst hcontra
          exact hl he
        · split <;> simp

/-- The fuel the public entry points hand to `myDijkstra` is never exhausted. -/
theorem fuel_suffices (g : Graph T) (junk : List Nat → Int) (retVector : List Node)
    (node1 node2 : Node) :
    g.dijkstraNodes junk retVector node1 node2 ≠ .error .outOfFuel := by
  have h := myDijkstra_fuel g junk node2 (g.nodes.length + 1) [] [] node1 retVector
    List.nodup_nil (by simp) (by simp) (by simp)
  unfold Graph.dijkstraNodes
  split
  · rename_i e he
    intro hcontra
    simp only [Except.error.injEq] at hcontra
    subst hcontra
    exact h he
  · split <;> simp

/-! ## Graph::myDijkstra when there is no path -/

theorem linksLoop_no_path (g : Graph T) (destination : Node)
    (recur : List Nat → List Node → Node → List Node →
      Except Fault (Int × List Node × List Node))
    (key : List Nat) (cs : List Node)
    (hrec : ∀ k n b, n ∈ g.addrs → n ∉ cs → (∀ p, ¬ SimplePath g cs n p destination) →
      recur k cs n b = .ok (-1, cs, b))
    (ls : List GraphLink) (hmem : ∀ l ∈ ls, l.next ∈ g.addrs)
    (hno : ∀ l ∈ ls, l.next ∉ cs → ∀ p, ¬ SimplePath g cs l.next p destination)
    (i : Nat) (bt : Option (List Node)) (r : Int) :
    linksLoop recur key ls i cs bt r = .ok (cs, bt, r) := by
  induction ls generalizing i bt r with
  | nil => simp [linksLoop]
  | cons l ls ih =>
    have ih2 := ih (fun a ha => hmem a (List.mem_cons_of_mem _ ha))
      (fun a ha => hno a (List.mem_cons_of_mem _ ha))
    rw [linksLoop]
    by_cases hin : l.next ∈ cs
    · simp only [hin, if_true]
      exact ih2 _ _ _
    · simp only [hin, if_false]
      rw [hrec _ _ _ (hmem l (List.mem_cons_self _ _)) hin (hno l (List.mem_cons_self _ _) hin)]
      simp only [ne_eq, not_true_eq_false, if_false, and_false]
      exact ih2 _ _ _

theorem myDijkstra_no_path (g : Graph T) (junk : List Nat → Int) (destination : Node)
    (hclosed : g.Closed) :
    ∀ (fuel : Nat) (key : List Nat) (checked : List Node) (current : Node) (best : List Node),
      current ∈ g.addrs → checked.Nodup → (∀ x ∈ checked, x ∈ g.addrs) → current ∉ checked →
      g.nodes.length + 1 ≤ fuel + checked.length →
      (∀ p, ¬ SimplePath g checked current p destination) →
      myDijkstra g junk fuel key checked current best destination = .ok (-1, checked, best) := by
  intro fuel
  induction fuel with
  | zero =>
    intro key checked current best hcur hnd hsub hc hf
    have h3 := (hnd.subperm (fun x hx => hsub x hx)).length_le
    simp only [Graph.addrs, List.length_map] at h3
    omega
  | succ fuel ih =>
    intro key checked current best hcur hnd hsub hc hf hno
    have hne : current ≠ destination := by
      intro e
      exact hno [] ⟨e, by simp [pathNodes], by simpa [pathNodes] using hc⟩
    obtain ⟨nd, hnd2, hndmem⟩ := deref_of_mem_addrs g current hcur
    have hlinks := linksOf_of_deref g current nd hnd2
    rw [myDijkstra]
    simp only [hne, if_false, hnd2]
    have hcs_nd : (checked ++ [current]).Nodup :=
      List.nodup_append.mpr ⟨hnd, List.nodup_singleton _, by
        intro x hx1 hx2
        simp only [List.mem_singleton] at hx2
        subst hx2
        exact hc hx1⟩
    have hcs_sub : ∀ x ∈ checked ++ [current], x ∈ g.addrs := by
      intro x hx
      rcases List.mem_append.mp hx with hx | hx
      · exact hsub x hx
      · simp only [List.mem_singleton] at hx
        subst hx
        exact hcur
    rw [linksLoop_no_path g destination _ key (checked ++ [current])
      (by
        intro k n b hn hnc hnp
        exact ih k (checked ++ [current]) n b hn hcs_nd hcs_sub hnc
          (by simp only [List.length_append, List.length_singleton]; omega) hnp)
      nd.links (fun l hl => hclosed nd hndmem l hl)
      (by
        intro l hl hnc p hp
        exact hno (l :: p) (SimplePath.cons (by rw [hlinks]; exact hl) hc hp))
      0 none (junk key)]
    simp

/-! ## Graph::myDijkstra when every unassigned `retVal` reads `-1` -/

theorem SimplePath.weaken {g : Graph T} {checked : List Node} {s d : Node}
    {ls : List GraphLink} (h : SimplePath g checked s ls d) : SimplePath g [] s ls d :=
  ⟨h.1, h.2.1, by simp⟩

theorem IsLinkPath.last_mem {g : Graph T} {d : Node} :
    ∀ {ls : List GraphLink} {s : Node}, IsLinkPath g s ls d → d ∈ pathNodes s ls := by
  intro ls
  induction ls with
  | nil =>
    intro s h
    have h1 : s = d := h
    simp [pathNodes, h1]
  | cons l ls ih =>
    intro s h
    have := ih h.2
    exact List.mem_cons_of_mem _ this

theorem SimplePath.eq_nil_of_self {g : Graph T} {checked : List Node} {d : Node}
    {ls : List GraphLink} (h : SimplePath g checked d ls d) : ls = [] := by
  cases ls with
  | nil => rfl
  | cons l ls =>
    exfalso
    have h1 := IsLinkPath.last_mem h.1.2
    have e : pathNodes d (l :: ls) = d :: pathNodes l.next ls := rfl
    have h2 := h.2.1
    rw [e] at h2
    exact (List.nodup_cons.mp h2).1 h1

theorem pathCost_cons (l : GraphLink) (ls : List GraphLink) :
    pathCost (l :: ls) = l.metric + pathCost ls := by
  simp [pathCost]

theorem linksLoop_min (g : Graph T) (destination : Node) (hok : PathSumsOk g destination)
    (recur : List Nat → List Node → Node → List Node →
      Except Fault (Int × List Node × List Node))
    (key : List Nat) (checked : List Node) (current : Node) (hc : current ∉ checked)
    (hrec : ∀ k n b, n ∈ g.addrs → n ∉ checked ++ [current] →
      ∃ m p, recur k (checked ++ [current]) n b = .ok (m, checked ++ [current], b ++ p) ∧
        MinResult g (checked ++ [current]) n destination m p)
    (ls : List GraphLink) (hls : ∀ l ∈ ls, l ∈ g.linksOf current)
    (hmem : ∀ l ∈ ls, l.next ∈ g.addrs)
    (i : Nat) (bt : Option (List Node)) (r : Int)
    (hgood : LoopGood g checked current destination bt r) :
    ∃ bt1 r1, linksLoop recur key ls i (checked ++ [current]) bt r =
        .ok (checked ++ [current], bt1, r1) ∧
      LoopGood g checked current destination bt1 r1 ∧
      (bt ≠ none → bt1 ≠ none ∧ r1 ≤ r) ∧
      ∀ l ∈ ls, ∀ p, SimplePath g (checked ++ [current]) l.next p destination →
        bt1 ≠ none ∧ r1 ≤ l.metric + pathCost p := by
  induction ls generalizing i bt r with
  | nil =>
    exact ⟨bt, r, by simp [linksLoop], hgood, fun h => ⟨h, le_refl _⟩, by simp⟩
  | cons l ls ih =>
    have ih2 := ih (fun a ha => hls a (List.mem_cons_of_mem _ ha))
      (fun a ha => hmem a (List.mem_cons_of_mem _ ha))
    have hl := hls l (List.mem_cons_self _ _)
    rw [linksLoop]
    by_cases hin : l.next ∈ checked ++ [current]
    · simp only [hin, if_true]
      obtain ⟨bt1, r1, h1, h2, h3, h4⟩ := ih2 (i + 1) bt r hgood
      refine ⟨bt1, r1, h1, h2, h3, ?_⟩
      intro a ha p hp
      rcases List.mem_cons.mp ha with rfl | ha
      · exact absurd hin (hp.2.2 a.next (by simp [pathNodes]))
      · exact h4 a ha p hp
    · simp only [hin, if_false]
      obtain ⟨m, p0, hr, hmin⟩ := hrec (i :: key) l.next [l.next]
        (hmem l (List.mem_cons_self _ _)) hin
      rw [hr]
      rcases hmin with ⟨rfl, rfl, hnone⟩ | ⟨hm, ls0, hp0, hmap, hcost, hleast⟩
      · simp only [ne_eq, not_true_eq_false, if_false, and_false]
        obtain ⟨bt1, r1, h1, h2, h3, h4⟩ := ih2 (i + 1) bt r hgood
        refine ⟨bt1, r1, h1, h2, h3, ?_⟩
        intro a ha p hp
        rcases List.mem_cons.mp ha with rfl | ha
        · exact absurd hp (hnone p)
        · exact h4 a ha p hp
      · have hfull : SimplePath g checked current (l :: ls0) destination :=
          SimplePath.cons hl hc hp0
        have hsum := hok current (l :: ls0) hfull.weaken
        rw [pathCost_cons, hcost] at hsum
        have hadd : intAdd m l.metric = .ok (m + l.metric) := by
          simp only [intAdd]
          rw [if_pos]
          constructor <;> linarith [hsum.2.1, hsum.2.2]
        have hcm : m + l.metric ≠ -1 := by
          intro e
          apply hsum.1
          linarith
        simp only [ne_eq, hm, not_false_eq_true, if_true, hadd, hcm, and_true]
        by_cases hacc : m + l.metric < r ∨ r = -1
        · simp only [hacc, if_true]
          have hgood2 : LoopGood g checked current destination (some ([l.next] ++ p0))
              (m + l.metric) := by
            refine ⟨by simp, ?_⟩
            intro t ht
            simp only [Option.some.injEq] at ht
            subst ht
            refine ⟨hcm, l :: ls0, hfull, by simp [hmap], ?_⟩
            rw [pathCost_cons, hcost]
            ring
          obtain ⟨bt1, r1, h1, h2, h3, h4⟩ := ih2 (i + 1) _ _ hgood2
          have h3a := h3 (by simp)
          refine ⟨bt1, r1, h1, h2, ?_, ?_⟩
          · intro hbt
            refine ⟨h3a.1, ?_⟩
            have hr1 : r ≠ -1 := by
              cases hb : bt with
              | none => exact absurd hb hbt
              | some t => exact (hgood.2 t hb).1
            rcases hacc with hlt | heq
            · linarith [h3a.2]
            · exact absurd heq hr1
          · intro a ha p hp
            rcases List.mem_cons.mp ha with rfl | ha
            · refine ⟨h3a.1, ?_⟩
              have := hleast p hp
              linarith [h3a.2]
            · exact h4 a ha p hp
        · simp only [hacc, if_false]
          simp only [not_or, not_lt] at hacc
          have hbt : bt ≠ none := fun e => hacc.2 (hgood.1 e)
          obtain ⟨bt1, r1, h1, h2, h3, h4⟩ := ih2 (i + 1) bt r hgood
          have h3a := h3 hbt
          refine ⟨bt1, r1, h1, h2, h3, ?_⟩
          intro a ha p hp
          rcases List.mem_cons.mp ha with rfl | ha
          · refine ⟨h3a.1, ?_⟩
            have := hleast p hp
            linarith [h3a.2, hacc.1]
          · exact h4 a ha p hp

theorem myDijkstra_min (g : Graph T) (junk : List Nat → Int) (destination : Node)
    (hclosed : g.Closed) (hjunk : ∀ k, junk k = -1) (hok : PathSumsOk g destination) :
    ∀ (fuel : Nat) (key : List Nat) (checked : List Node) (current : Node) (best : List Node),
      current ∈ g.addrs → checked.Nodup → (∀ x ∈ checked, x ∈ g.addrs) → current ∉ checked →
      g.nodes.length + 1 ≤ fuel + checked.length →
      ∃ m p, myDijkstra g junk fuel key checked current best destination =
          .ok (m, checked, best ++ p) ∧
        MinResult g checked current destination m p := by
  intro fuel
  induction fuel with
  | zero =>
    intro key checked current best hcur hnd hsub hc hf
    have h3 := (hnd.subperm (fun x hx => hsub x hx)).length_le
    simp only [Graph.addrs, List.length_map] at h3
    omega
  | succ fuel ih =>
    intro key checked current best hcur hnd hsub hc hf
    rw [myDijkstra]
    by_cases heq : current = destination
    · subst heq
      refine ⟨0, [], by simp, Or.inr ⟨by decide, [], ?_, rfl, rfl, ?_⟩⟩
      · exact ⟨rfl, by simp [pathNodes], by simpa [pathNodes] using hc⟩
      · intro ls1 h1
        rw [h1.eq_nil_of_self]
        simp [pathCost]
    · obtain ⟨nd, hnd2, hndmem⟩ := deref_of_mem_addrs g current hcur
      have hlinks := linksOf_of_deref g current nd hnd2
      simp only [heq, if_false, hnd2]
      have hcs_nd : (checked ++ [current]).Nodup :=
        List.nodup_append.mpr ⟨hnd, List.nodup_singleton _, by
          intro x hx1 hx2
          simp only [List.mem_singleton] at hx2
          subst hx2
          exact hc hx1⟩
      have hcs_sub : ∀ x ∈ checked ++ [current], x ∈ g.addrs := by
        intro x hx
        rcases List.mem_append.mp hx with hx | hx
        · exact hsub x hx
        · simp only [List.mem_singleton] at hx
          subst hx
          exact hcur
      obtain ⟨bt1, r1, h1, h2, _, h4⟩ := linksLoop_min g destination hok
        (fun k c n b => myDijkstra g junk fuel k c n b destination) key checked current hc
        (by
          intro k n b hn hnc
          exact ih k (checked ++ [current]) n b hn hcs_nd hcs_sub hnc
            (by simp only [List.length_append, List.length_singleton]; omega))
        nd.links (by intro l hl; rw [hlinks]; exact hl)
        (fun l hl => hclosed nd hndmem l hl) 0 none (junk key)
        ⟨fun _ => hjunk key, by simp⟩
      rw [h1]
      have hbound : ∀ ls1, SimplePath g checked current ls1 destination →
          bt1 ≠ none ∧ r1 ≤ pathCost ls1 := by
        intro ls1 hs
        cases ls1 with
        | nil => exact absurd hs.1 heq
        | cons l p =>
          obtain ⟨q1, _, q3⟩ := hs.tail
          rw [pathCost_cons]
          exact h4 l (by rw [← hlinks]; exact q1) p q3
      cases bt1 with
      | some t =>
        obtain ⟨g1, ls, g2, g3, g4⟩ := h2.2 t rfl
        refine ⟨r1, t, by simp, Or.inr ⟨g1, ls, g2, g3, g4, fun ls1 hs => (hbound ls1 hs).2⟩⟩
      | none =>
        refine ⟨-1, [], by simp, Or.inl ⟨rfl, rfl, ?_⟩⟩
        intro ls1 hs
        exact (hbound ls1 hs).1 rfl

/-! ## Stores without incoming links, stores with bounded metrics -/

/-- No link path ends at a node that has no incoming link and is not the start. -/
theorem no_path_of_no_incoming (g : Graph T) (d : Node)
    (h : ∀ n ∈ g.nodes, ∀ l ∈ n.links, l.next ≠ d) :
    ∀ (ls : List GraphLink) (s : Node), s ≠ d → ¬ IsLinkPath g s ls d := by
  intro ls
  induction ls with
  | nil => intro s hs hp; exact hs hp
  | cons l ls ih =>
    intro s hs hp
    obtain ⟨hl, hrest⟩ := hp
    cases hd : g.deref s with
    | none => simp [Graph.linksOf, hd] at hl
    | some nd =>
      rw [linksOf_of_deref g s nd hd] at hl
      exact ih l.next (h nd (mem_addrs_of_deref g s nd hd).2 l hl) hrest

theorem mem_nodes_of_mem_linksOf (g : Graph T) (s : Node) (l : GraphLink)
    (hl : l ∈ g.linksOf s) : s ∈ g.addrs ∧ ∃ nd ∈ g.nodes, l ∈ nd.links := by
  cases hd : g.deref s with
  | none => simp [Graph.linksOf, hd] at hl
  | some nd =>
    rw [linksOf_of_deref g s nd hd] at hl
    exact ⟨(mem_addrs_of_deref g s nd hd).1, nd, (mem_addrs_of_deref g s nd hd).2, hl⟩

theorem IsLinkPath.sources {g : Graph T} {d : Node} :
    ∀ {ls : List GraphLink} {s : Node}, IsLinkPath g s ls d →
      ∀ x ∈ (pathNodes s ls).dropLast, x ∈ g.addrs := by
  intro ls
  induction ls with
  | nil => intro s _ x hx; simp [pathNodes] at hx
  | cons l ls ih =>
    intro s h x hx
    have e : pathNodes s (l :: ls) = s :: pathNodes l.next ls := rfl
    have e2 : pathNodes l.next ls ≠ [] := by simp [pathNodes]
    rw [e, List.dropLast_cons_of_ne_nil e2] at hx
    rcases List.mem_cons.mp hx with rfl | hx
    · exact (mem_nodes_of_mem_linksOf g x l h.1).1
    · exact ih h.2 x hx

theorem SimplePath.length_le {g : Graph T} {checked : List Node} {s d : Node}
    {ls : List GraphLink} (h : SimplePath g checked s ls d) : ls.length ≤ g.nodes.length := by
  have h1 : ((pathNodes s ls).dropLast).Nodup := h.2.1.sublist (List.dropLast_sublist _)
  have h2 := (h1.subperm (fun x hx => IsLinkPath.sources h.1 x hx)).length_le
  simpa [pathNodes, Graph.addrs] using h2

theorem IsLinkPath.cost_bounds {g : Graph T} {d : Node} (M : Int)
    (hM : ∀ n ∈ g.nodes, ∀ l ∈ n.links, 0 ≤ l.metric ∧ l.metric ≤ M) :
    ∀ {ls : List GraphLink} {s : Node}, IsLinkPath g s ls d →
      0 ≤ pathCost ls ∧ pathCost ls ≤ ls.length * M := by
  intro ls
  induction ls with
  | nil => intro s _; simp [pathCost]
  | cons l ls ih =>
    intro s h
    obtain ⟨_, nd, hnd, hl⟩ := mem_nodes_of_mem_linksOf g s l h.1
    have h1 := hM nd hnd l hl
    have h2 := ih h.2
    rw [pathCost_cons]
    simp only [List.length_cons, Nat.cast_add, Nat.cast_one]
    constructor
    · linarith [h1.1, h2.1]
    · nlinarith [h1.2, h2.2]

/-- Metrics between `0` and `M`, with `M` times the number of nodes an `int`: then no
simple path has total metric `-1` and no path sum overflows. -/
theorem pathSumsOk_of_bounded (g : Graph T) (d : Node) (M : Int)
    (hM : ∀ n ∈ g.nodes, ∀ l ∈ n.links, 0 ≤ l.metric ∧ l.metric ≤ M)
    (hlen : g.nodes.length * M ≤ INT_MAX) : PathSumsOk g d := by
  intro s ls h
  have h1 := IsLinkPath.cost_bounds M hM h.1
  have h2 := h.length_le
  have h3 : pathCost ls ≤ INT_MAX := by
    cases ls with
    | nil => simp [pathCost, INT_MAX]
    | cons l ls =>
      obtain ⟨_, nd, hnd, hl⟩ := mem_nodes_of_mem_linksOf g s l h.1.1
      have hM0 : 0 ≤ M := le_trans (hM nd hnd l hl).1 (hM nd hnd l hl).2
      have h4 : ((l :: ls).length : Int) ≤ g.nodes.length := by exact_mod_cast h2
      have h5 : ((l :: ls).length : Int) * M ≤ g.nodes.length * M :=
        mul_le_mul_of_nonneg_right h4 hM0
      linarith [h1.2]
  refine ⟨?_, ?_, h3⟩
  · intro e; linarith [h1.1]
  · have : INT_MIN ≤ 0 := by decide
    linarith [h1.1]

/-- The link form of `Graph::dijkstra` never returns `false`. -/
theorem dijkstraLinks_never_false (g : Graph T) (junk : List Nat → Int) (argFirst : Bool)
    (retVector : List (Option GraphLink)) (node1 node2 : Node)
    (r : List (Option GraphLink)) :
    g.dijkstraLinks junk argFirst retVector node1 node2 ≠ .ok (false, r) := by
  unfold Graph.dijkstraLinks
  split
  · simp
  · rename_i found best _
    have hne : ¬ ((if found then (1 : Int) else 0) = -1) := by
      cases found <;> decide
    simp only [hne, if_false]
    split <;> simp

/-! ## Further lemmas for the claims -/

theorem myDijkstra_min_top (g : Graph T) (junk : List Nat → Int) (node1 node2 : Node)
    (hclosed : g.Closed) (h1 : node1 ∈ g.addrs) (hjunk : ∀ k, junk k = -1)
    (hok : PathSumsOk g node2) (best : List Node) :
    ∃ m p, myDijkstra g junk (g.nodes.length + 1) [] [] node1 best node2 =
        .ok (m, [], best ++ p) ∧ MinResult g [] node1 node2 m p :=
  myDijkstra_min g junk node2 hclosed hjunk hok (g.nodes.length + 1) [] [] node1 best h1
    List.nodup_nil (by simp) (by simp) (by simp)

theorem map_eq_self_iff {α : Type} (f : α → α) (xs : List α) :
    xs.map f = xs ↔ ∀ a ∈ xs, f a = a := by
  induction xs with
  | nil => simp
  | cons a xs ih => simp [ih]

theorem stripLinks_eq_self_iff (x : Node) (n : GraphNode T) :
    stripLinks x n = n ↔ ∀ l ∈ n.links, l.next ≠ x := by
  cases n with
  | mk a v ls =>
    simp only [stripLinks, GraphNode.mk.injEq, true_and, List.filter_eq_self]
    simp

theorem remove_getLinkTo (g : Graph T) (x : Node) (hnd : g.addrs.Nodup) :
    ∀ n ∈ (g.remove x).2.nodes, n.getLinkTo x = none := by
  intro n hn
  by_cases hx : x ∈ g.addrs
  · rw [remove_owned g x hnd hx] at hn
    simp only [List.mem_map] at hn
    obtain ⟨a, _, rfl⟩ := hn
    exact stripLinks_getLinkTo x a
  · rw [remove_not_owned g x hx] at hn
    simp only [List.mem_map] at hn
    obtain ⟨a, _, rfl⟩ := hn
    exact stripLinks_getLinkTo x a

/-! ## The claims -/

/-- Claim C1, path minimality, at inputs where the code misses it.  In the store A, B, C,
D with A→B(1), A→C(4), B→C(2), B→D(5), C→D(1) the links A→B, B→C, C→D form a simple path
of total metric 4.  When the unassigned `retVal` of every activation of `myDijkstra` holds
0, no branch passes `currentMetric < retVal || retVal == -1`, the search returns `-1` and
the node form returns `false` with nothing written.  When it holds `-1` the search returns
4 and the node form writes A, B, C, D.  In the store `detour` the path A→C, C→D costs 6;
when the activation for C finds the 1 that the activation for B left behind, the branch
through C is dropped and the search returns 101 with the nodes B, D. -/
theorem C1_minimality_lost_to_unassigned_retVal :
    SimplePath abcd [] 1 [⟨1, 2⟩, ⟨2, 3⟩, ⟨1, 4⟩] 4 ∧
    pathCost [⟨1, 2⟩, ⟨2, 3⟩, ⟨1, 4⟩] = 4 ∧
    myDijkstra abcd junkZero 5 [] [] 1 [] 4 = .ok (-1, [], []) ∧
    abcd.dijkstraNodes junkZero [] 1 4 = .ok (false, []) ∧
    myDijkstra abcd junkNone 5 [] [] 1 [] 4 = .ok (4, [], [2, 3, 4]) ∧
    abcd.dijkstraNodes junkNone [] 1 4 = .ok (true, [1, 2, 3, 4]) ∧
    SimplePath detour [] 1 [⟨1, 3⟩, ⟨5, 4⟩] 4 ∧ pathCost [⟨1, 3⟩, ⟨5, 4⟩] = 6 ∧
    myDijkstra detour junkStale 5 [] [] 1 [] 4 = .ok (101, [], [2, 4]) ∧
    detour.dijkstraNodes junkStale [] 1 4 = .ok (true, [1, 2, 4]) :=
  ⟨by decide, by decide, rfl, rfl, rfl, rfl, by decide, by decide, rfl, rfl⟩

/-- Claim C2, path well-formedness: whenever the node form of `Graph::dijkstra`, called
with an empty output vector, returns `true`, the output starts with `node1`, ends with
`node2`, every consecutive pair is joined by a link of the first to the second, and no
node occurs twice.  This holds for all metrics and for every value the unassigned `retVal`
may hold. -/
theorem C2_path_well_formed (g : Graph T) (junk : List Nat → Int) (node1 node2 : Node)
    (out : List Node) (h : g.dijkstraNodes junk [] node1 node2 = .ok (true, out)) :
    out.head? = some node1 ∧ out.getLast? = some node2 ∧
      List.Chain' (Linked g) out ∧ out.Nodup := by
  unfold Graph.dijkstraNodes at h
  split at h
  · exact absurd h (by simp)
  · rename_i m c best hrun
    obtain ⟨_, p, hp, _, hpath⟩ := myDijkstra_sound g junk node2 _ _ _ _ _ _ _ _ hrun
    simp only [List.nil_append] at hp
    subst hp
    split at h
    · rename_i hm
      simp only [Except.ok.injEq, Prod.mk.injEq, true_and] at h
      subst h
      have hnp := hpath hm
      refine ⟨rfl, hnp.getLast, hnp.chain, List.nodup_cons.mpr ⟨?_, hnp.nodup⟩⟩
      intro hmem
      exact (hnp.avoids node1 hmem).2 rfl
    · simp at h

/-- Claim C2 on the store A, B, C, D, from A to D. -/
theorem C2_path_well_formed_witness :
    abcd.dijkstraNodes junkNone [] 1 4 = .ok (true, [1, 2, 3, 4]) ∧
    ([1, 2, 3, 4].head? = some 1 ∧ [1, 2, 3, 4].getLast? = some 4 ∧
      List.Chain' (Linked abcd) [1, 2, 3, 4] ∧ [1, 2, 3, 4].Nodup) :=
  ⟨rfl, C2_path_well_formed abcd junkNone 1 4 [1, 2, 3, 4] rfl⟩

/-- Claim C3, unreachable result: in a store whose links all lead to nodes of the store,
for an owned node `n1` and a node `n2` with no simple path from `n1` to `n2`, the node form
of `Graph::dijkstra` returns `false` and leaves the output vector exactly as the caller
supplied it, whatever the unassigned `retVal` holds.  The search reads the store and
returns no store: it writes neither the node list nor a payload nor a link list. -/
theorem C3_unreachable (g : Graph T) (junk : List Nat → Int) (retVector : List Node)
    (n1 n2 : Node) (hclosed : g.Closed) (h1 : n1 ∈ g.addrs)
    (hno : ∀ ls, ¬ SimplePath g [] n1 ls n2) :
    g.dijkstraNodes junk retVector n1 n2 = .ok (false, retVector) := by
  have h := myDijkstra_no_path g junk n2 hclosed (g.nodes.length + 1) [] [] n1 retVector h1
    List.nodup_nil (by simp) (by simp) (by simp) hno
  unfold Graph.dijkstraNodes
  rw [h]
  simp

/-- Claim C3 on the store with the isolated node E: from A to E, with a caller vector that
already holds an entry. -/
theorem C3_unreachable_witness :
    abcde.dijkstraNodes junkZero [7] 1 5 = .ok (false, [7]) :=
  C3_unreachable abcde junkZero [7] 1 5 (by decide) (by decide)
    (fun ls h => no_path_of_no_incoming abcde 5 (by decide) ls 1 (by decide) h.1)

/-- Claim C4 fails as stated: in the store with the one link A→B of metric `-1` there is
a simple path from A to B, of total metric `-1`, and the search returns `-1` and the node
form returns `false`, whatever the unassigned `retVal` holds. -/
theorem C4_minus_one_path_reported_missing :
    SimplePath minusOne [] 1 [⟨-1, 2⟩] 2 ∧ pathCost [⟨-1, 2⟩] = -1 ∧
    (∀ junk, myDijkstra minusOne junk 3 [] [] 1 [] 2 = .ok (-1, [], [])) ∧
    (∀ junk, minusOne.dijkstraNodes junk [] 1 2 = .ok (false, [])) := by
  have h : ∀ junk, myDijkstra minusOne junk 3 [] [] 1 [] 2 = .ok (-1, [], []) := by
    intro junk
    simp [myDijkstra, linksLoop, Graph.deref, minusOne, intAdd, INT_MIN, INT_MAX]
  refine ⟨by decide, by decide, h, ?_⟩
  intro junk
  have h2 : minusOne.nodes.length + 1 = 3 := rfl
  simp [Graph.dijkstraNodes, h2, h junk]

/-- Claim C4 as amended: the failure value is the integer `-1`.  In a store whose links
all lead to nodes of the store, in which no simple path to `node2` has total metric `-1`
and every such total is an `int` (so for non-negative metrics that do not overflow), and
when every unassigned `retVal` reads `-1`: the search from an owned `node1` returns, and
it reports no path (`myDijkstra` returns `-1`, the node form returns `false`) only if
there is no simple path from `node1` to `node2`. -/
theorem C4_no_path_only_if_unreachable (g : Graph T) (junk : List Nat → Int)
    (node1 node2 : Node) (hclosed : g.Closed) (h1 : node1 ∈ g.addrs)
    (hjunk : ∀ k, junk k = -1) (hok : PathSumsOk g node2) :
    (∃ r, g.dijkstraNodes junk [] node1 node2 = .ok r) ∧
    (∀ c b, myDijkstra g junk (g.nodes.length + 1) [] [] node1 [] node2 = .ok (-1, c, b) →
      ∀ ls, ¬ SimplePath g [] node1 ls node2) ∧
    (∀ out, g.dijkstraNodes junk [] node1 node2 = .ok (false, out) →
      ∀ ls, ¬ SimplePath g [] node1 ls node2) := by
  obtain ⟨m, p, hrun, hmin⟩ := myDijkstra_min_top g junk node1 node2 hclosed h1 hjunk hok []
  have hiff : m = -1 → ∀ ls, ¬ SimplePath g [] node1 ls node2 := by
    intro hm
    rcases hmin with ⟨_, _, hno⟩ | ⟨hne, _⟩
    · exact hno
    · exact absurd hm hne
  refine ⟨?_, ?_, ?_⟩
  · unfold Graph.dijkstraNodes
    rw [hrun]
    by_cases hm : m = -1
    · exact ⟨(false, [] ++ p), by simp [hm]⟩
    · exact ⟨(true, node1 :: ([] ++ p)), by simp [hm]⟩
  · intro c b hcb
    rw [hrun] at hcb
    simp only [Except.ok.injEq, Prod.mk.injEq] at hcb
    exact hiff hcb.1
  · intro out hout
    unfold Graph.dijkstraNodes at hout
    rw [hrun] at hout
    by_cases hm : m = -1
    · exact hiff hm
    · simp [hm] at hout

/-- Claim C4 as amended on the store A, B, C, D, whose metrics lie between 0 and 5. -/
theorem C4_no_path_only_if_unreachable_witness :
    (∃ r, abcd.dijkstraNodes junkNone [] 1 4 = .ok r) ∧
    (∀ c b, myDijkstra abcd junkNone (abcd.nodes.length + 1) [] [] 1 [] 4 = .ok (-1, c, b) →
      ∀ ls, ¬ SimplePath abcd [] 1 ls 4) ∧
    (∀ out, abcd.dijkstraNodes junkNone [] 1 4 = .ok (false, out) →
      ∀ ls, ¬ SimplePath abcd [] 1 ls 4) :=
  C4_no_path_only_if_unreachable abcd junkNone 1 4 (by decide) (by decide) (fun _ => rfl)
    (pathSumsOk_of_bounded abcd 4 5 (by decide) (by decide))

/-- Claim C5, trivial path: for every store and every node `n`, the node form of
`Graph::dijkstra` called with an empty output and `n` twice returns `true` and leaves
exactly `[n]`; `myDijkstra` returns 0 with `checked` and `best` untouched, and it does so
for every store and every unassigned value, reading no link. -/
theorem C5_trivial_path (g : Graph T) (junk : List Nat → Int) (n : Node) :
    g.dijkstraNodes junk [] n n = .ok (true, [n]) ∧
    ∀ (h : Graph T) (j : List Nat → Int) (fuel : Nat) (key : List Nat)
      (checked best : List Node),
      myDijkstra h j (fuel + 1) key checked n best n = .ok (0, checked, best) := by
  have h2 : ∀ (h : Graph T) (j : List Nat → Int) (fuel : Nat) (key : List Nat)
      (checked best : List Node),
      myDijkstra h j (fuel + 1) key checked n best n = .ok (0, checked, best) := by
    intro h j fuel key checked best
    rw [myDijkstra]
    simp
  refine ⟨?_, h2⟩
  unfold Graph.dijkstraNodes
  rw [h2]
  simp

/-- Claim C6, at an input where the code misses it.  In the store A, B, C, D, E there is
no simple path from A to the isolated node E and the node form returns `false`; the link
form returns `true` (with nothing pushed), for every value of the unassigned `retVal` and
in both orders of evaluation, because it compares the `bool` result of the node form with
`-1`. -/
theorem C6_link_form_returns_true_without_path :
    (∀ ls, ¬ SimplePath abcde [] 1 ls 5) ∧
    (∀ junk, abcde.dijkstraNodes junk [] 1 5 = .ok (false, [])) ∧
    (∀ junk argFirst, abcde.dijkstraLinks junk argFirst [] 1 5 = .ok (true, [])) := by
  have hno : ∀ ls, ¬ SimplePath abcde [] 1 ls 5 :=
    fun ls h => no_path_of_no_incoming abcde 5 (by decide) ls 1 (by decide) h.1
  have hrun : ∀ junk, myDijkstra abcde junk (abcde.nodes.length + 1) [] [] 1 [] 5 =
      .ok (-1, [], []) := fun junk =>
    myDijkstra_no_path abcde junk 5 (by decide) (abcde.nodes.length + 1) [] [] 1 []
      (by decide) List.nodup_nil (by simp) (by simp) (by simp) hno
  have hnodes : ∀ junk, abcde.dijkstraNodes junk [] 1 5 = .ok (false, []) := by
    intro junk
    unfold Graph.dijkstraNodes
    rw [hrun junk]
    simp
  refine ⟨hno, hnodes, ?_⟩
  intro junk argFirst
  unfold Graph.dijkstraLinks
  rw [hnodes junk]
  simp [linkFormLoop]

/-- Claim C7, at an input where the code misses it.  In the store A, B, C, D, from A to D
and with `retVal` reading `-1`, the node form yields the four nodes A, B, C, D and the link
form yields four entries, not three: the node sequence it walks starts with `node1`, so
its first entry is the result of `getLinkTo(A)` on A, which is `NULL`.  With the other
order of evaluation all four entries are `NULL`.  From A to A, whatever the unassigned
`retVal` holds, the node form yields the one node A and the link form the one entry
`NULL`. -/
theorem C7_link_form_has_leading_null :
    abcd.dijkstraNodes junkNone [] 1 4 = .ok (true, [1, 2, 3, 4]) ∧
    abcd.dijkstraLinks junkNone false [] 1 4 =
      .ok (true, [none, some ⟨1, 2⟩, some ⟨2, 3⟩, some ⟨1, 4⟩]) ∧
    abcd.dijkstraLinks junkNone true [] 1 4 = .ok (true, [none, none, none, none]) ∧
    (∀ junk, abcd.dijkstraNodes junk [] 1 1 = .ok (true, [1])) ∧
    (∀ junk argFirst, abcd.dijkstraLinks junk argFirst [] 1 1 = .ok (true, [none])) := by
  have hnodes : ∀ junk, abcd.dijkstraNodes junk [] 1 1 = .ok (true, [1]) := by
    intro junk
    simp [Graph.dijkstraNodes, myDijkstra]
  refine ⟨rfl, rfl, rfl, hnodes, ?_⟩
  intro junk argFirst
  unfold Graph.dijkstraLinks
  rw [hnodes junk]
  cases argFirst <;> rfl

/-- Claim C8 fails as stated: the store `strayLink` does not own the address 9, and
`remove(9)` returns `false` but deletes the link of A that leads to 9. -/
theorem C8_remove_not_owned_deletes_links :
    9 ∉ strayLink.addrs ∧ strayLink.remove 9 = (false, ⟨[⟨1, 'A', []⟩]⟩) ∧
    (strayLink.remove 9).2 ≠ strayLink :=
  ⟨by decide, rfl, by decide⟩

/-- Claim C8 as amended: for a node `x` that is not in the node list, `Graph::remove(x)`
returns `false` and keeps the node list, its order and the payloads; the link list of
every owned node becomes its old link list without the links that lead to `x`.  The store
is unchanged exactly when no owned node had a link to `x`, as in every store whose links
all lead to nodes of the store. -/
theorem C8_remove_not_owned (g : Graph T) (x : Node) (hx : x ∉ g.addrs) :
    (g.remove x).1 = false ∧
    (g.remove x).2.nodes = g.nodes.map (stripLinks x) ∧
    (g.remove x).2.addrs = g.addrs ∧
    ((g.remove x).2 = g ↔ ∀ n ∈ g.nodes, ∀ l ∈ n.links, l.next ≠ x) ∧
    (g.Closed → (g.remove x).2 = g) := by
  rw [remove_not_owned g x hx]
  have hiff : (⟨g.nodes.map (stripLinks x)⟩ : Graph T) = g ↔
      ∀ n ∈ g.nodes, ∀ l ∈ n.links, l.next ≠ x := by
    cases g with
    | mk ns =>
      simp only [Graph.mk.injEq, map_eq_self_iff, stripLinks_eq_self_iff]
  refine ⟨rfl, rfl, ?_, hiff, ?_⟩
  · simp [Graph.addrs, stripLinks, Function.comp_def]
  · intro hclosed
    refine hiff.mpr ?_
    intro n hn l hl e
    exact hx (e ▸ hclosed n hn l hl)

/-- Claim C8 as amended on the store whose node has a link to the address 9. -/
theorem C8_remove_not_owned_witness :
    (strayLink.remove 9).1 = false ∧
    (strayLink.remove 9).2.nodes = strayLink.nodes.map (stripLinks 9) ∧
    (strayLink.remove 9).2.addrs = strayLink.addrs ∧
    ((strayLink.remove 9).2 = strayLink ↔
      ∀ n ∈ strayLink.nodes, ∀ l ∈ n.links, l.next ≠ 9) ∧
    (strayLink.Closed → (strayLink.remove 9).2 = strayLink) :=
  C8_remove_not_owned strayLink 9 (by decide)

/-- Claim C9, at the input where the code misses it.  `remove(C)` on the store A, B, C, D
returns `true` and leaves A, B, D with the links A→B(1) and B→D(5).  The path query from A
to D on that store then depends on the unassigned `retVal`: reading 0 it reports no path,
reading `-1` it returns A, B, D with cost 6. -/
theorem C9_query_after_remove :
    abcd.remove 3 = (true, ⟨[⟨1, 'A', [⟨1, 2⟩]⟩, ⟨2, 'B', [⟨5, 4⟩]⟩, ⟨4, 'D', []⟩]⟩) ∧
    (abcd.remove 3).2.dijkstraNodes junkZero [] 1 4 = .ok (false, []) ∧
    (abcd.remove 3).2.dijkstraNodes junkNone [] 1 4 = .ok (true, [1, 2, 4]) ∧
    myDijkstra (abcd.remove 3).2 junkNone 4 [] [] 1 [] 4 = .ok (6, [], [2, 4]) :=
  ⟨rfl, rfl, rfl, rfl⟩

/-- Claim C10 fails as stated: the node `linkedNode` has a link of metric 5 to the
address 2; after `connectTo(2, 7)` the call `getLinkTo(2)` returns that older link, and no
link of metric 7. -/
theorem C10_getLinkTo_returns_older_link :
    (linkedNode.connectTo 2 7).2.getLinkTo 2 = some ⟨5, 2⟩ ∧
    ¬ ∃ l, (linkedNode.connectTo 2 7).2.getLinkTo 2 = some l ∧ l.metric = 7 ∧ l.next = 2 := by
  refine ⟨rfl, ?_⟩
  rintro ⟨l, hl, hm, _⟩
  have h : (linkedNode.connectTo 2 7).2.getLinkTo 2 = some ⟨5, 2⟩ := rfl
  rw [h] at hl
  simp only [Option.some.injEq] at hl
  subst hl
  exact absurd hm (by decide)

/-- Claim C10 as amended: after `s.connectTo(d, m)` the call `s.getLinkTo(d)` returns a
link whose destination is `d`.  It is the created link, of metric `m`, when `s` had no
link to `d` before the call; otherwise it is the link `s.getLinkTo(d)` returned before the
call. -/
theorem C10_connectTo_getLinkTo (s : GraphNode T) (d : Node) (m : Int) :
    ∃ l, (s.connectTo d m).2.getLinkTo d = some l ∧ l.next = d ∧
      ((∀ a ∈ s.links, a.next ≠ d) → l = (s.connectTo d m).1 ∧ l.metric = m) ∧
      (∀ a, s.getLinkTo d = some a → l = a) := by
  have happ := getLinkToLoop_append d s.links [⟨m, d⟩]
  cases hs : getLinkToLoop d s.links with
  | none =>
    rw [hs] at happ
    refine ⟨⟨m, d⟩, ?_, rfl, fun _ => ⟨rfl, rfl⟩, ?_⟩
    · simp only [GraphNode.getLinkTo, GraphNode.connectTo]
      rw [happ]
      simp [getLinkToLoop]
    · intro a ha
      simp [GraphNode.getLinkTo, hs] at ha
  | some a =>
    rw [hs] at happ
    refine ⟨a, ?_, getLinkToLoop_next d s.links a hs, ?_, ?_⟩
    · simp only [GraphNode.getLinkTo, GraphNode.connectTo]
      rw [happ]
    · intro hno
      exact absurd hs (by rw [(getLinkToLoop_eq_none d s.links).mpr hno]; simp)
    · intro b hb
      simp only [GraphNode.getLinkTo, hs, Option.some.injEq] at hb
      exact hb

/-! ## Claims on the links of a node -/

theorem unconnectToLoop_snd (x : Node) (ls : List GraphLink) (b : Bool) :
    (unconnectToLoop x ls b).2 = (b || ls.any (fun l => decide (l.next = x))) := by
  induction ls generalizing b with
  | nil => simp [unconnectToLoop]
  | cons l ls ih =>
    by_cases h : l.next = x
    · simp [unconnectToLoop, h, ih]
    · simp [unconnectToLoop, h, ih]

theorem getLinkToLoop_first (x : Node) (ls : List GraphLink) (l : GraphLink)
    (h : getLinkToLoop x ls = some l) :
    ∃ i : Nat, ls[i]? = some l ∧
      ∀ j : Nat, j < i → ∀ a : GraphLink, ls[j]? = some a → a.next ≠ x := by
  induction ls with
  | nil => simp [getLinkToLoop] at h
  | cons a ls ih =>
    by_cases ha : a.next = x
    · simp only [getLinkToLoop, ha, if_true, Option.some.injEq] at h
      subst h
      exact ⟨0, by simp, by intro j hj; omega⟩
    · simp only [getLinkToLoop, ha, if_false] at h
      obtain ⟨i, hi1, hi2⟩ := ih h
      refine ⟨i + 1, by simpa using hi1, ?_⟩
      intro j hj b hb
      cases j with
      | zero =>
        simp only [List.getElem?_cons_zero, Option.some.injEq] at hb
        subst hb
        exact ha
      | succ j =>
        simp only [List.getElem?_cons_succ] at hb
        exact hi2 j (by omega) b hb

theorem deref_onNode (g : Graph T) (s : Node) (f : GraphNode T → GraphNode T)
    (hf : ∀ n, (f n).addr = n.addr) (q : Node) :
    (g.onNode s f).deref q = (g.deref q).map (fun n => if n.addr = s then f n else n) := by
  cases g with
  | mk ns =>
    simp only [Graph.onNode, Graph.deref]
    induction ns with
    | nil => rfl
    | cons n ns ih =>
      have haddr : (if n.addr = s then f n else n).addr = n.addr := by
        split
        · exact hf n
        · rfl
      by_cases hq : n.addr = q
      · subst hq
        simp only [List.map_cons, List.find?_cons, haddr, decide_True, Option.map_some']
      · simp only [List.map_cons, List.find?_cons, haddr, hq, decide_False]
        exact ih

theorem addrs_onNode (g : Graph T) (s : Node) (f : GraphNode T → GraphNode T)
    (hf : ∀ n, (f n).addr = n.addr) : (g.onNode s f).addrs = g.addrs := by
  simp only [Graph.onNode, Graph.addrs, List.map_map]
  apply List.map_congr_left
  intro n _
  simp only [Function.comp]
  split
  · exact hf n
  · rfl

/-- Claim C11: `s.unconnectTo(d)` returns `true` if and only if `s` had a link to `d`;
afterwards the links of `s` are the old links without the ones to `d`, in the old order,
no link to `d` is left, `getLinkTo(d)` returns `NULL`, and address and payload of `s` are
as before. -/
theorem C11_unconnectTo_removes_every_link (s : GraphNode T) (d : Node) :
    ((s.unconnectTo d).1 = true ↔ ∃ l ∈ s.links, l.next = d) ∧
    (s.unconnectTo d).2.links = s.links.filter (fun l => decide (l.next ≠ d)) ∧
    (∀ l ∈ (s.unconnectTo d).2.links, l.next ≠ d) ∧
    (s.unconnectTo d).2.getLinkTo d = none ∧
    (s.unconnectTo d).2.addr = s.addr ∧ (s.unconnectTo d).2.value = s.value := by
  have hl : (s.unconnectTo d).2.links = s.links.filter (fun l => decide (l.next ≠ d)) := by
    rw [unconnectTo_snd]
    rfl
  refine ⟨?_, hl, ?_, ?_, rfl, rfl⟩
  · simp [GraphNode.unconnectTo, unconnectToLoop_snd]
  · intro l hmem
    rw [hl] at hmem
    simpa using (List.mem_filter.mp hmem).2
  · rw [unconnectTo_snd]
    exact stripLinks_getLinkTo d s

/-- Claim C12: `s.getLinkTo(d)` returns `NULL` if and only if no link of `s` leads to `d`;
otherwise it returns the link at the smallest position of the link vector that leads to
`d`.  The function returns the link only: the node is not written. -/
theorem C12_getLinkTo_first_match (s : GraphNode T) (d : Node) :
    (s.getLinkTo d = none ↔ ∀ l ∈ s.links, l.next ≠ d) ∧
    ∀ l, s.getLinkTo d = some l →
      l.next = d ∧ ∃ i : Nat, s.links[i]? = some l ∧
        ∀ j : Nat, j < i → ∀ a : GraphLink, s.links[j]? = some a → a.next ≠ d :=
  ⟨getLinkToLoop_eq_none d s.links,
    fun l h => ⟨getLinkToLoop_next d s.links l h, getLinkToLoop_first d s.links l h⟩⟩

/-- Claim C14: `s.connectTo(d, m)` returns the link `(m, d)` and leaves `s` with its old
links followed by that link, one link more than before, whether or not `s` already had a
link to `d`; address and payload of `s` stay.  In the store, the links of every other
address are as before and the node vector keeps its addresses. -/
theorem C14_connectTo_appends (s : GraphNode T) (d : Node) (m : Int) :
    (s.connectTo d m).1 = ⟨m, d⟩ ∧
    (s.connectTo d m).2.links = s.links ++ [⟨m, d⟩] ∧
    (s.connectTo d m).2.links.length = s.links.length + 1 ∧
    (s.connectTo d m).2.addr = s.addr ∧ (s.connectTo d m).2.value = s.value ∧
    ∀ (g : Graph T) (a : Node),
      (g.connectTo a d m).addrs = g.addrs ∧
      (∀ q, q ≠ a → (g.connectTo a d m).deref q = g.deref q) ∧
      (g.connectTo a d m).linksOf a =
        (if a ∈ g.addrs then g.linksOf a ++ [⟨m, d⟩] else []) := by
  refine ⟨rfl, rfl, by simp [GraphNode.connectTo], rfl, rfl, ?_⟩
  intro g a
  have hf : ∀ n : GraphNode T, ((fun n : GraphNode T => (n.connectTo d m).2) n).addr =
      n.addr := fun _ => rfl
  refine ⟨addrs_onNode g a _ hf, ?_, ?_⟩
  · intro q hq
    rw [Graph.connectTo, deref_onNode g a _ hf q]
    cases hd : g.deref q with
    | none => rfl
    | some nd =>
      have := (List.find?_some hd)
      simp only [decide_eq_true_eq] at this
      simp [this, hq]
  · simp only [Graph.linksOf]
    rw [Graph.connectTo, deref_onNode g a _ hf a]
    cases hd : g.deref a with
    | none =>
      have : a ∉ g.addrs := by
        intro hmem
        obtain ⟨nd, hnd, _⟩ := deref_of_mem_addrs g a hmem
        rw [hd] at hnd
        exact absurd hnd (by simp)
      simp [this]
    | some nd =>
      have h1 := (mem_addrs_of_deref g a nd hd).1
      have h2 := (List.find?_some hd)
      simp only [decide_eq_true_eq] at h2
      simp [h1, h2, GraphNode.connectTo]

/-! ## Sequences of calls: what they keep -/

theorem entries_onNode (g : Graph T) (s : Node) (f : GraphNode T → GraphNode T)
    (hf : ∀ n, (f n).addr = n.addr ∧ (f n).value = n.value) :
    (g.onNode s f).entries = g.entries := by
  simp only [Graph.onNode, Graph.entries, List.map_map]
  apply List.map_congr_left
  intro n _
  simp only [Function.comp]
  split
  · rw [(hf n).1, (hf n).2]
  · rfl

theorem addrs_eq_entries (g : Graph T) : g.addrs = g.entries.map (fun e => e.1) := by
  simp [Graph.addrs, Graph.entries, Function.comp_def]

theorem entries_remove (g : Graph T) (x : Node) (hnd : g.addrs.Nodup) :
    (g.remove x).2.entries = g.entries.filter (fun e => decide (e.1 ≠ x)) := by
  by_cases hx : x ∈ g.addrs
  · rw [remove_owned g x hnd hx]
    simp only [Graph.entries, List.map_map, List.filter_map]
    apply List.map_congr_left
    intro n _
    rfl
  · rw [remove_not_owned g x hx]
    have hall : g.entries.filter (fun e => decide (e.1 ≠ x)) = g.entries := by
      apply List.filter_eq_self.mpr
      intro e he
      simp only [Graph.entries, List.mem_map] at he
      obtain ⟨n, hn, rfl⟩ := he
      have : n.addr ≠ x := fun e => hx (by rw [← e]; exact List.mem_map_of_mem _ hn)
      simpa using this
    rw [hall]
    simp only [Graph.entries, List.map_map]
    apply List.map_congr_left
    intro n _
    rfl

theorem entries_apply (g : Graph T) (op : Op T) (hnd : g.addrs.Nodup) :
    (g.apply op).entries = insertionOrder g.entries [op] := by
  cases op with
  | add item p => simp [Graph.apply, Graph.add, Graph.entries, insertionOrder]
  | remove x => simp only [Graph.apply, insertionOrder]; exact entries_remove g x hnd
  | connectTo s d m =>
    simp only [Graph.apply, insertionOrder, Graph.connectTo]
    exact entries_onNode g s _ (fun _ => ⟨rfl, rfl⟩)
  | unconnectTo s d =>
    simp only [Graph.apply, insertionOrder, Graph.unconnectTo]
    exact entries_onNode g s _ (fun _ => ⟨rfl, rfl⟩)

theorem nodup_apply (g : Graph T) (op : Op T) (hnd : g.addrs.Nodup) (hadm : g.Admits op) :
    (g.apply op).addrs.Nodup := by
  rw [addrs_eq_entries, entries_apply g op hnd]
  rw [addrs_eq_entries] at hnd
  cases op with
  | add item p =>
    simp only [insertionOrder, List.map_append, List.map_cons, List.map_nil]
    have hp : p ∉ g.entries.map (fun e => e.1) := by
      rw [← addrs_eq_entries]; exact hadm
    exact List.nodup_append.mpr ⟨hnd, List.nodup_singleton _, by
      intro a ha hb
      simp only [List.mem_singleton] at hb
      subst hb
      exact hp ha⟩
  | remove x =>
    simp only [insertionOrder]
    exact hnd.sublist ((List.filter_sublist _).map _)
  | connectTo s d m => simpa [insertionOrder] using hnd
  | unconnectTo s d => simpa [insertionOrder] using hnd

theorem insertionOrder_cons (acc : List (Node × T)) (op : Op T) (ops : List (Op T)) :
    insertionOrder acc (op :: ops) = insertionOrder (insertionOrder acc [op]) ops := by
  cases op <;> simp [insertionOrder]

theorem entries_run (g : Graph T) (ops : List (Op T)) (hnd : g.addrs.Nodup)
    (hadm : g.AdmitsAll ops) :
    (g.run ops).entries = insertionOrder g.entries ops ∧ (g.run ops).addrs.Nodup := by
  induction ops generalizing g with
  | nil => exact ⟨rfl, hnd⟩
  | cons op ops ih =>
    have h := ih (g.apply op) (nodup_apply g op hnd hadm.1) hadm.2
    rw [insertionOrder_cons, ← entries_apply g op hnd]
    exact h

theorem getByValueLoop_eq [DecidableEq T] (v : T) (ns : List (GraphNode T))
    (out : List Node) :
    getByValueLoop v ns out =
      out ++ (ns.filter (fun n => decide (n.value = v))).map (fun n => n.addr) := by
  induction ns generalizing out with
  | nil => simp [getByValueLoop]
  | cons n ns ih =>
    by_cases h : n.value = v
    · simp [getByValueLoop, h, ih]
    · simp [getByValueLoop, h, ih]

theorem getByValue_eq_entries [DecidableEq T] (g : Graph T) (v : T) :
    g.getByValue [] v =
      (g.entries.filter (fun e => decide (e.2 = v))).map (fun e => e.1) := by
  simp only [Graph.getByValue, getByValueLoop_eq, List.nil_append, Graph.entries,
    List.filter_map, List.map_map]
  rfl

/-! ## The link-destination invariant -/

theorem closed_add (g : Graph T) (item : T) (p : Node) (hcl : g.Closed) :
    (g.add item p).2.Closed := by
  intro n hn l hl
  simp only [Graph.add, List.mem_append, List.mem_singleton] at hn
  simp only [Graph.addrs, Graph.add, List.map_append, List.mem_append]
  rcases hn with hn | rfl
  · exact Or.inl (hcl n hn l hl)
  · simp at hl

theorem closed_connectTo (g : Graph T) (s d : Node) (m : Int) (hcl : g.Closed)
    (hd : d ∈ g.addrs) : (g.connectTo s d m).Closed := by
  intro n hn l hl
  rw [Graph.connectTo, addrs_onNode g s (fun a => (a.connectTo d m).2) (fun _ => rfl)]
  simp only [Graph.connectTo, Graph.onNode, List.mem_map] at hn
  obtain ⟨a, ha, rfl⟩ := hn
  split at hl
  · simp only [GraphNode.connectTo, List.mem_append, List.mem_singleton] at hl
    rcases hl with hl | rfl
    · exact hcl a ha l hl
    · exact hd
  · exact hcl a ha l hl

theorem closed_unconnectTo (g : Graph T) (s d : Node) (hcl : g.Closed) :
    (g.unconnectTo s d).Closed := by
  intro n hn l hl
  rw [Graph.unconnectTo, addrs_onNode g s (fun a => (a.unconnectTo d).2) (fun _ => rfl)]
  simp only [Graph.unconnectTo, Graph.onNode, List.mem_map] at hn
  obtain ⟨a, ha, rfl⟩ := hn
  split at hl
  · rw [unconnectTo_snd] at hl
    exact hcl a ha l (List.mem_filter.mp hl).1
  · exact hcl a ha l hl

theorem closed_remove (g : Graph T) (x : Node) (hnd : g.addrs.Nodup) (hcl : g.Closed) :
    (g.remove x).2.Closed := by
  by_cases hx : x ∈ g.addrs
  · rw [remove_owned g x hnd hx]
    intro n hn l hl
    simp only [List.mem_map, List.mem_filter] at hn
    obtain ⟨a, ⟨ha, hax⟩, rfl⟩ := hn
    have hl2 := List.mem_filter.mp hl
    have hne : l.next ≠ x := by simpa using hl2.2
    have hmem := hcl a ha l hl2.1
    simp only [Graph.addrs, List.mem_map] at hmem ⊢
    obtain ⟨b, hb, hbl⟩ := hmem
    refine ⟨stripLinks x b, ?_, hbl⟩
    have hbx : b.addr ≠ x := by rw [hbl]; exact hne
    have hbm : b ∈ g.nodes.filter (fun n => decide (n.addr ≠ x)) :=
      List.mem_filter.mpr ⟨hb, by simpa using hbx⟩
    exact ⟨b, hbm, rfl⟩
  · rw [remove_not_owned g x hx]
    intro n hn l hl
    simp only [List.mem_map] at hn
    obtain ⟨a, ha, rfl⟩ := hn
    have hl2 := List.mem_filter.mp hl
    have hmem := hcl a ha l hl2.1
    simp only [Graph.addrs, List.mem_map] at hmem ⊢
    obtain ⟨b, hb, hbl⟩ := hmem
    exact ⟨stripLinks x b, ⟨b, hb, rfl⟩, hbl⟩

theorem closed_apply (g : Graph T) (op : Op T) (hnd : g.addrs.Nodup) (hcl : g.Closed)
    (hadm : g.Admits op) : (g.apply op).Closed := by
  cases op with
  | add item p => exact closed_add g item p hcl
  | remove x => exact closed_remove g x hnd hcl
  | connectTo s d m => exact closed_connectTo g s d m hcl hadm.2
  | unconnectTo s d => exact closed_unconnectTo g s d hcl

theorem closed_run (g : Graph T) (ops : List (Op T)) (hnd : g.addrs.Nodup) (hcl : g.Closed)
    (hadm : g.AdmitsAll ops) : (g.run ops).Closed := by
  induction ops generalizing g with
  | nil => exact hcl
  | cons op ops ih =>
    exact ih (g.apply op) (nodup_apply g op hnd hadm.1) (closed_apply g op hnd hcl hadm.1)
      hadm.2

/-! ## Released objects: what `Graph::remove` releases -/

theorem mem_unconnectToFreed (x : Node) (ls : List GraphLink) (l : GraphLink) :
    l ∈ unconnectToFreed x ls ↔ l ∈ ls ∧ l.next = x := by
  induction ls with
  | nil => simp [unconnectToFreed]
  | cons a ls ih =>
    by_cases h : a.next = x
    · simp only [unconnectToFreed, h, if_true, List.mem_cons, ih]
      constructor
      · rintro (rfl | ⟨h1, h2⟩)
        · exact ⟨Or.inl rfl, h⟩
        · exact ⟨Or.inr h1, h2⟩
      · rintro ⟨rfl | h1, h2⟩
        · exact Or.inl rfl
        · exact Or.inr ⟨h1, h2⟩
    · simp only [unconnectToFreed, h, if_false, List.mem_cons, ih]
      constructor
      · rintro ⟨h1, h2⟩
        exact ⟨Or.inr h1, h2⟩
      · rintro ⟨rfl | h1, h2⟩
        · exact absurd h2 h
        · exact ⟨h1, h2⟩

theorem mem_removeFreed_link (x : Node) (ns : List (GraphNode T)) (o : Node)
    (l : GraphLink) :
    Freed.link o l ∈ removeFreed x ns ↔
      ∃ n ∈ ns, n.addr = o ∧ o ≠ x ∧ l ∈ n.links ∧ l.next = x := by
  induction ns with
  | nil => simp [removeFreed]
  | cons n ns ih =>
    by_cases h : n.addr = x
    · simp only [removeFreed, h, if_true, List.mem_cons, ih, false_or, exists_eq_or_imp]
      constructor
      · rintro (h1 | h1)
        · exact absurd h1 (by simp)
        · exact Or.inr h1
      · rintro (⟨h1, h2, _⟩ | h1)
        · exact absurd h1.symm h2
        · exact Or.inr h1
    · simp only [removeFreed, h, if_false, List.mem_append, List.mem_map, ih,
        List.mem_cons, exists_eq_or_imp, mem_unconnectToFreed]
      constructor
      · rintro (⟨a, ⟨h1, h2⟩, h3⟩ | h1)
        · simp only [Freed.link.injEq] at h3
          obtain ⟨rfl, rfl⟩ := h3
          exact Or.inl ⟨rfl, h, h1, h2⟩
        · exact Or.inr h1
      · rintro (⟨rfl, _, h1, h2⟩ | h1)
        · exact Or.inl ⟨l, ⟨h1, h2⟩, rfl⟩
        · exact Or.inr h1

/-- `Graph::remove(x)` hands no link of `x` itself to `free`. -/
theorem removeFreed_keeps_own_links (x : Node) (g : Graph T) (l : GraphLink) :
    Freed.link x l ∉ removeFreed x g.nodes := by
  intro h
  obtain ⟨_, _, _, hne, _⟩ := (mem_removeFreed_link x g.nodes x l).mp h
  exact hne rfl

/-! ## The visited list is restored -/

theorem linksLoop_frame
    (recur : List Nat → List Node → Node → List Node →
      Except Fault (Int × List Node × List Node))
    (hrec : ∀ k c n b m c1 b1, recur k c n b = .ok (m, c1, b1) → c1 = c)
    (key : List Nat) (ls : List GraphLink) (i : Nat) (cs : List Node)
    (bt : Option (List Node)) (r : Int) (c1 : List Node) (bt1 : Option (List Node))
    (r1 : Int) (h : linksLoop recur key ls i cs bt r = .ok (c1, bt1, r1)) : c1 = cs := by
  induction ls generalizing i bt r with
  | nil =>
    simp only [linksLoop, Except.ok.injEq, Prod.mk.injEq] at h
    exact h.1.symm
  | cons l ls ih =>
    rw [linksLoop] at h
    split at h
    · exact ih _ _ _ h
    · split at h
      · exact absurd h (by simp)
      · rename_i m c2 test hr
        have := hrec _ _ _ _ _ _ _ hr
        subst this
        split at h
        · exact absurd h (by simp)
        · split at h
          · exact ih _ _ _ h
          · exact ih _ _ _ h

/-- Once a candidate is retained, a later branch replaces it only with a total that is
strictly lower. -/
theorem linksLoop_replaces_only_lower
    (recur : List Nat → List Node → Node → List Node →
      Except Fault (Int × List Node × List Node))
    (key : List Nat) (ls : List GraphLink) (i : Nat) (cs : List Node) (t : List Node)
    (r : Int) (hr : r ≠ -1) (c1 : List Node) (bt1 : Option (List Node)) (r1 : Int)
    (h : linksLoop recur key ls i cs (some t) r = .ok (c1, bt1, r1)) :
    (bt1 = some t ∧ r1 = r) ∨ (r1 < r ∧ r1 ≠ -1 ∧ bt1 ≠ none) := by
  induction ls generalizing i cs t r with
  | nil =>
    simp only [linksLoop, Except.ok.injEq, Prod.mk.injEq] at h
    exact Or.inl ⟨h.2.1.symm, h.2.2.symm⟩
  | cons l ls ih =>
    rw [linksLoop] at h
    split at h
    · exact ih _ _ _ _ hr h
    · split at h
      · exact absurd h (by simp)
      · split at h
        · exact absurd h (by simp)
        · rename_i cm _
          split at h
          · rename_i hacc
            have hlt : cm < r := by
              rcases hacc.1 with h1 | h1
              · exact h1
              · exact absurd h1 hr
            rcases ih _ _ _ _ hacc.2 h with ⟨_, h2⟩ | ⟨h2, h3, h4⟩
            · exact Or.inr ⟨by rw [h2]; exact hlt, by rw [h2]; exact hacc.2, by simp [*]⟩
            · exact Or.inr ⟨lt_trans h2 hlt, h3, h4⟩
          · exact ih _ _ _ _ hr h

/-! ## The recorded search is the search -/

theorem linksLoopT_snd
    (recurT : List Nat → List Node → Node → List Node →
      List (List Node × Node) × Except Fault (Int × List Node × List Node))
    (recur : List Nat → List Node → Node → List Node →
      Except Fault (Int × List Node × List Node))
    (hrec : ∀ k c n b, (recurT k c n b).2 = recur k c n b)
    (key : List Nat) (ls : List GraphLink) (i : Nat) (cs : List Node)
    (bt : Option (List Node)) (r : Int) :
    (linksLoopT recurT key ls i cs bt r).2 = linksLoop recur key ls i cs bt r := by
  induction ls generalizing i cs bt r with
  | nil => rfl
  | cons l ls ih =>
    rw [linksLoopT, linksLoop]
    by_cases hin : l.next ∈ cs
    · simp only [hin, if_true]
      exact ih _ _ _ _
    · simp only [hin, if_false]
      have h := hrec (i :: key) cs l.next [l.next]
      rw [← h]
      rcases hT : recurT (i :: key) cs l.next [l.next] with ⟨t, res⟩
      cases res with
      | error e => rfl
      | ok v =>
        obtain ⟨m, c1, test⟩ := v
        simp only
        cases hadd : (if m ≠ -1 then intAdd m l.metric else Except.ok m) with
        | error e => rfl
        | ok cm =>
          simp only
          split
          · exact ih _ _ _ _
          · exact ih _ _ _ _

theorem myDijkstraT_snd (g : Graph T) (junk : List Nat → Int) (destination : Node) :
    ∀ (fuel : Nat) (key : List Nat) (checked : List Node) (current : Node)
      (best : List Node),
      (myDijkstraT g junk fuel key checked current best destination).2 =
        myDijkstra g junk fuel key checked current best destination := by
  intro fuel
  induction fuel with
  | zero => intro key checked current best; rfl
  | succ fuel ih =>
    intro key checked current best
    rw [myDijkstraT, myDijkstra]
    split
    · rfl
    · split
      · rfl
      · rename_i nd _
        simp only
        rw [linksLoopT_snd _ (fun k c n b => myDijkstra g junk fuel k c n b destination)
          (fun k c n b => ih k c n b)]

/-! ## Every activation has a sound visited list -/

theorem IsLinkPath.snoc {g : Graph T} {l : GraphLink} :
    ∀ {ls : List GraphLink} {s b : Node}, IsLinkPath g s ls b → l ∈ g.linksOf b →
      IsLinkPath g s (ls ++ [l]) l.next := by
  intro ls
  induction ls with
  | nil =>
    intro s b h hl
    have e : s = b := h
    subst e
    exact ⟨hl, rfl⟩
  | cons a ls ih =>
    intro s b h hl
    exact ⟨h.1, ih h.2 hl⟩

theorem pathNodes_snoc (s : Node) (ls : List GraphLink) (l : GraphLink) :
    pathNodes s (ls ++ [l]) = pathNodes s ls ++ [l.next] := by
  simp [pathNodes]

theorem ActivationOk.child {g : Graph T} {node1 : Node} {c : List Node} {cur : Node}
    (h : ActivationOk g node1 c cur) {l : GraphLink} (hl : l ∈ g.linksOf cur)
    (hnot : l.next ∉ c ++ [cur]) : ActivationOk g node1 (c ++ [cur]) l.next := by
  obtain ⟨h1, h2, ls, h3, h4⟩ := h
  refine ⟨?_, hnot, ls ++ [l], IsLinkPath.snoc h3 hl, ?_⟩
  · exact List.nodup_append.mpr ⟨h1, List.nodup_singleton _, by
      intro x hx1 hx2
      simp only [List.mem_singleton] at hx2
      subst hx2
      exact h2 hx1⟩
  · rw [pathNodes_snoc, h4]

theorem linksLoopT_activations (g : Graph T) (node1 : Node)
    (recurT : List Nat → List Node → Node → List Node →
      List (List Node × Node) × Except Fault (Int × List Node × List Node))
    (c : List Node) (cur : Node) (hact : ActivationOk g node1 c cur)
    (hrec : ∀ k n b, ActivationOk g node1 (c ++ [cur]) n →
      ∀ e ∈ (recurT k (c ++ [cur]) n b).1, ActivationOk g node1 e.1 e.2)
    (hframe : ∀ k cs n b m c1 b1, (recurT k cs n b).2 = .ok (m, c1, b1) → c1 = cs)
    (key : List Nat) (ls : List GraphLink) (hls : ∀ l ∈ ls, l ∈ g.linksOf cur) (i : Nat)
    (bt : Option (List Node)) (r : Int) :
    ∀ e ∈ (linksLoopT recurT key ls i (c ++ [cur]) bt r).1, ActivationOk g node1 e.1 e.2 := by
  induction ls generalizing i bt r with
  | nil => intro e he; simp [linksLoopT] at he
  | cons l ls ih =>
    have ih2 := ih (fun a ha => hls a (List.mem_cons_of_mem _ ha))
    rw [linksLoopT]
    by_cases hin : l.next ∈ c ++ [cur]
    · simp only [hin, if_true]
      exact ih2 _ _ _
    · simp only [hin, if_false]
      have hchild := hact.child (hls l (List.mem_cons_self _ _)) hin
      have hsub := hrec (i :: key) l.next [l.next] hchild
      have hfr := hframe (i :: key) (c ++ [cur]) l.next [l.next]
      rcases hT : recurT (i :: key) (c ++ [cur]) l.next [l.next] with ⟨t, res⟩
      rw [hT] at hsub hfr
      cases res with
      | error e => exact hsub
      | ok v =>
        obtain ⟨m, c1, test⟩ := v
        have hc1 := hfr m c1 test rfl
        subst hc1
        simp only
        cases hadd : (if m ≠ -1 then intAdd m l.metric else Except.ok m) with
        | error e => exact hsub
        | ok cm =>
          simp only
          split
          · intro e he
            rcases List.mem_append.mp he with he | he
            · exact hsub e he
            · exact ih2 _ _ _ e he
          · intro e he
            rcases List.mem_append.mp he with he | he
            · exact hsub e he
            · exact ih2 _ _ _ e he

theorem myDijkstraT_activations (g : Graph T) (junk : List Nat → Int)
    (node1 destination : Node) :
    ∀ (fuel : Nat) (key : List Nat) (checked : List Node) (current : Node)
      (best : List Node), ActivationOk g node1 checked current →
      ∀ e ∈ (myDijkstraT g junk fuel key checked current best destination).1,
        ActivationOk g node1 e.1 e.2 := by
  intro fuel
  induction fuel with
  | zero =>
    intro key checked current best hact e he
    simp only [myDijkstraT, List.mem_singleton] at he
    subst he
    exact hact
  | succ fuel ih =>
    intro key checked current best hact e he
    rw [myDijkstraT] at he
    split at he
    · simp only [List.mem_singleton] at he
      subst he
      exact hact
    · split at he
      · simp only [List.mem_singleton] at he
        subst he
        exact hact
      · rename_i nd hnd
        simp only [List.mem_cons] at he
        rcases he with rfl | he
        · exact hact
        · exact linksLoopT_activations g node1 _ checked current hact
            (fun k n b hn => ih k (checked ++ [current]) n b hn)
            (by
              intro k cs n b m c1 b1 h
              rw [myDijkstraT_snd] at h
              exact (myDijkstra_sound g junk destination fuel k cs n b m c1 b1 h).1)
            key nd.links (by intro l hl; rw [linksOf_of_deref g current nd hnd]; exact hl)
            0 none (junk key) e he

theorem ActivationOk.bounds {g : Graph T} {node1 : Node} {c : List Node} {cur : Node}
    (h : ActivationOk g node1 c cur) :
    c.length ≤ g.nodes.length ∧
    ∀ R : List Node, (∀ x, (∃ ls, IsLinkPath g node1 ls x) → x ∈ R) →
      c.length + 1 ≤ R.length := by
  obtain ⟨h1, h2, ls, h3, h4⟩ := h
  constructor
  · have hsrc := IsLinkPath.sources h3
    rw [h4, List.dropLast_concat] at hsrc
    have := (h1.subperm (fun x hx => hsrc x hx)).length_le
    simpa [Graph.addrs] using this
  · intro R hR
    have hnd : (c ++ [cur]).Nodup :=
      List.nodup_append.mpr ⟨h1, List.nodup_singleton _, by
        intro x hx1 hx2
        simp only [List.mem_singleton] at hx2
        subst hx2
        exact h2 hx1⟩
    have hsub : (c ++ [cur]) ⊆ R := by
      intro x hx
      rw [← h4] at hx
      -- every node of a link path from `node1` is reached by an initial piece of it
      have key : ∀ (ls : List GraphLink) (s : Node), IsLinkPath g s ls cur →
          ∀ y ∈ pathNodes s ls, ∃ ms, IsLinkPath g s ms y := by
        intro ls
        induction ls with
        | nil =>
          intro s _ y hy
          simp only [pathNodes, List.map_nil, List.mem_singleton] at hy
          exact ⟨[], hy.symm⟩
        | cons a ls ih =>
          intro s hp y hy
          have e : pathNodes s (a :: ls) = s :: pathNodes a.next ls := rfl
          rw [e] at hy
          rcases List.mem_cons.mp hy with rfl | hy
          · exact ⟨[], rfl⟩
          · obtain ⟨ms, hms⟩ := ih a.next hp.2 y hy
            exact ⟨a :: ms, hp.1, hms⟩
      exact hR x (key ls node1 h3 x hx)
    have := (hnd.subperm hsub).length_le
    simpa using this

/-! ## More fuel changes nothing -/

theorem linksLoop_more_fuel
    (recur recur2 : List Nat → List Node → Node → List Node →
      Except Fault (Int × List Node × List Node))
    (hrec : ∀ k c n b, recur k c n b ≠ .error .outOfFuel → recur2 k c n b = recur k c n b)
    (key : List Nat) (ls : List GraphLink) (i : Nat) (cs : List Node)
    (bt : Option (List Node)) (r : Int)
    (h : linksLoop recur key ls i cs bt r ≠ .error .outOfFuel) :
    linksLoop recur2 key ls i cs bt r = linksLoop recur key ls i cs bt r := by
  induction ls generalizing i cs bt r with
  | nil => rfl
  | cons l ls ih =>
    rw [linksLoop] at h ⊢
    rw [linksLoop]
    by_cases hin : l.next ∈ cs
    · simp only [hin, if_true] at h ⊢
      exact ih _ _ _ _ h
    · simp only [hin, if_false] at h ⊢
      have hne : recur (i :: key) cs l.next [l.next] ≠ .error .outOfFuel := by
        intro e
        rw [e] at h
        exact h rfl
      rw [hrec _ _ _ _ hne]
      cases hr : recur (i :: key) cs l.next [l.next] with
      | error e => rfl
      | ok v =>
        obtain ⟨m, c1, test⟩ := v
        rw [hr] at h
        simp only at h ⊢
        cases hadd : (if m ≠ -1 then intAdd m l.metric else Except.ok m) with
        | error e => rfl
        | ok cm =>
          rw [hadd] at h
          simp only at h ⊢
          split
          · rename_i hacc
            rw [if_pos hacc] at h
            exact ih _ _ _ _ h
          · rename_i hacc
            rw [if_neg hacc] at h
            exact ih _ _ _ _ h

theorem myDijkstra_more_fuel (g : Graph T) (junk : List Nat → Int) (destination : Node) :
    ∀ (fuel : Nat) (key : List Nat) (checked : List Node) (current : Node)
      (best : List Node),
      myDijkstra g junk fuel key checked current best destination ≠ .error .outOfFuel →
      myDijkstra g junk (fuel + 1) key checked current best destination =
        myDijkstra g junk fuel key checked current best destination := by
  intro fuel
  induction fuel with
  | zero =>
    intro key checked current best h
    exact absurd rfl h
  | succ fuel ih =>
    intro key checked current best h
    rw [myDijkstra] at h
    rw [myDijkstra]
    conv_rhs => rw [myDijkstra]
    split
    · rfl
    · rename_i hne
      simp only [hne, if_false] at h
      split
      · rfl
      · rename_i nd hnd
        simp only [hnd] at h
        have hloop : linksLoop (fun k c n b => myDijkstra g junk fuel k c n b destination) key
            nd.links 0 (checked ++ [current]) none (junk key) ≠ .error .outOfFuel := by
          intro e
          rw [e] at h
          exact h rfl
        rw [linksLoop_more_fuel _ _ (fun k c n b hh => ih k c n b hh) key nd.links 0
          (checked ++ [current]) none (junk key) hloop]

theorem myDijkstra_extra_fuel (g : Graph T) (junk : List Nat → Int) (destination : Node)
    (fuel : Nat) (key : List Nat) (checked : List Node) (current : Node) (best : List Node)
    (h : myDijkstra g junk fuel key checked current best destination ≠ .error .outOfFuel)
    (extra : Nat) :
    myDijkstra g junk (fuel + extra) key checked current best destination =
      myDijkstra g junk fuel key checked current best destination := by
  induction extra with
  | zero => rfl
  | succ extra ih =>
    have h2 : myDijkstra g junk (fuel + extra) key checked current best destination ≠
        .error .outOfFuel := by rw [ih]; exact h
    have := myDijkstra_more_fuel g junk destination (fuel + extra) key checked current best h2
    rw [← ih, ← this]
    rfl

/-! ## Graph::myDijkstra when every unassigned `retVal` reads `-1`: the tie-break -/

theorem posPath_cons {g : Graph T} {s : Node} {j : Nat} {js : List Nat} {l : GraphLink}
    {ls1 : List GraphLink} (hpos : (g.linksOf s)[j]? = some l)
    (hp : posPath g s (j :: js) = some ls1) :
    ∃ rest, posPath g l.next js = some rest ∧ ls1 = l :: rest := by
  simp only [posPath, hpos] at hp
  cases hr : posPath g l.next js with
  | none => simp [hr] at hp
  | some rest =>
    simp only [hr, Option.map_some', Option.some.injEq] at hp
    exact ⟨rest, rfl, hp.symm⟩

theorem posPath_of_isLinkPath {g : Graph T} {d : Node} :
    ∀ {ls : List GraphLink} {s : Node}, IsLinkPath g s ls d →
      ∃ js, posPath g s js = some ls := by
  intro ls
  induction ls with
  | nil => intro s _; exact ⟨[], rfl⟩
  | cons l ls ih =>
    intro s h
    obtain ⟨js, hjs⟩ := ih h.2
    obtain ⟨i, hi⟩ := List.getElem?_of_mem h.1
    exact ⟨i :: js, by simp [posPath, hi, hjs]⟩

theorem lexLe_cons_self (i : Nat) (as bs : List Nat) (h : lexLe as bs = true) :
    lexLe (i :: as) (i :: bs) = true := by
  simp [lexLe, h]

theorem lexLe_cons_lt (a b : Nat) (as bs : List Nat) (h : a < b) :
    lexLe (a :: as) (b :: bs) = true := by
  simp [lexLe, h]

theorem LexInv.skip {g : Graph T} {checked : List Node} {current destination : Node}
    {i : Nat} {bt : Option (List Node)} {r : Int} {l : GraphLink}
    (hpos : (g.linksOf current)[i]? = some l)
    (hinv : LexInv g checked current destination i bt r)
    (hno : ∀ rest, ¬ SimplePath g (checked ++ [current]) l.next rest destination) :
    LexInv g checked current destination (i + 1) bt r := by
  constructor
  · intro hb
    obtain ⟨h1, h2⟩ := hinv.1 hb
    refine ⟨h1, ?_⟩
    intro j js ls1 hj hp hs
    rcases Nat.lt_succ_iff_lt_or_eq.mp hj with hlt | rfl
    · exact h2 j js ls1 hlt hp hs
    · obtain ⟨rest, _, rfl⟩ := posPath_cons hpos hp
      exact hno rest hs.tail.2.2
  · intro t ht
    obtain ⟨h1, j0, is, ls, hj0, hp0, hs0, hm0, hc0, hall⟩ := hinv.2 t ht
    refine ⟨h1, j0, is, ls, by omega, hp0, hs0, hm0, hc0, ?_⟩
    intro j js ls1 hj hp hs
    rcases Nat.lt_succ_iff_lt_or_eq.mp hj with hlt | rfl
    · exact hall j js ls1 hlt hp hs
    · obtain ⟨rest, _, rfl⟩ := posPath_cons hpos hp
      exact absurd hs.tail.2.2 (hno rest)

theorem LexInv.accept {g : Graph T} {checked : List Node} {current destination : Node}
    {i : Nat} {bt : Option (List Node)} {r : Int} {l : GraphLink} {m : Int}
    {is0 : List Nat} {ls0 : List GraphLink}
    (hpos : (g.linksOf current)[i]? = some l) (hc : current ∉ checked)
    (hinv : LexInv g checked current destination i bt r)
    (hp0 : posPath g l.next is0 = some ls0)
    (hs0 : SimplePath g (checked ++ [current]) l.next ls0 destination)
    (hcost : pathCost ls0 = m)
    (hleast : ∀ js ls1, posPath g l.next js = some ls1 →
      SimplePath g (checked ++ [current]) l.next ls1 destination →
      m ≤ pathCost ls1 ∧ (pathCost ls1 = m → lexLe is0 js = true))
    (hacc : m + l.metric < r ∨ r = -1) (hcm : m + l.metric ≠ -1) :
    LexInv g checked current destination (i + 1)
      (some (l.next :: ls0.map (fun a => a.next))) (m + l.metric) := by
  have hl : l ∈ g.linksOf current := List.getElem?_mem hpos
  constructor
  · intro hb
    exact absurd hb (by simp)
  · intro t ht
    simp only [Option.some.injEq] at ht
    subst ht
    refine ⟨hcm, i, is0, l :: ls0, by omega, by simp [posPath, hpos, hp0],
      SimplePath.cons hl hc hs0, rfl, by rw [pathCost_cons, hcost]; ring, ?_⟩
    intro j js ls1 hj hp hs
    rcases Nat.lt_succ_iff_lt_or_eq.mp hj with hlt | rfl
    · cases hb : bt with
      | none => exact absurd hs ((hinv.1 hb).2 j js ls1 hlt hp)
      | some t0 =>
        obtain ⟨h1, _, _, _, _, _, _, _, _, hall⟩ := hinv.2 t0 hb
        have h2 := (hall j js ls1 hlt hp hs).1
        have h3 : m + l.metric < r := by
          rcases hacc with h | h
          · exact h
          · exact absurd h h1
        refine ⟨by linarith, ?_⟩
        intro e
        linarith
    · obtain ⟨rest, hrest, rfl⟩ := posPath_cons hpos hp
      have h2 := hleast js rest hrest hs.tail.2.2
      rw [pathCost_cons]
      refine ⟨by linarith [h2.1], ?_⟩
      intro e
      exact lexLe_cons_self _ _ _ (h2.2 (by linarith))

theorem LexInv.reject {g : Graph T} {checked : List Node} {current destination : Node}
    {i : Nat} {bt : Option (List Node)} {r : Int} {l : GraphLink} {m : Int}
    (hpos : (g.linksOf current)[i]? = some l)
    (hinv : LexInv g checked current destination i bt r)
    (hleast : ∀ js ls1, posPath g l.next js = some ls1 →
      SimplePath g (checked ++ [current]) l.next ls1 destination → m ≤ pathCost ls1)
    (hrej : ¬ (m + l.metric < r ∨ r = -1)) :
    LexInv g checked current destination (i + 1) bt r := by
  simp only [not_or, not_lt] at hrej
  constructor
  · intro hb
    exact absurd (hinv.1 hb).1 hrej.2
  · intro t ht
    obtain ⟨h1, j0, is, ls, hj0, hp0, hs0, hm0, hc0, hall⟩ := hinv.2 t ht
    refine ⟨h1, j0, is, ls, by omega, hp0, hs0, hm0, hc0, ?_⟩
    intro j js ls1 hj hp hs
    rcases Nat.lt_succ_iff_lt_or_eq.mp hj with hlt | rfl
    · exact hall j js ls1 hlt hp hs
    · obtain ⟨rest, hrest, rfl⟩ := posPath_cons hpos hp
      have h2 := hleast js rest hrest hs.tail.2.2
      rw [pathCost_cons]
      refine ⟨by linarith [hrej.1], ?_⟩
      intro _
      exact lexLe_cons_lt _ _ _ _ hj0

theorem linksLoop_lex (g : Graph T) (destination : Node) (hok : PathSumsOk g destination)
    (recur : List Nat → List Node → Node → List Node →
      Except Fault (Int × List Node × List Node))
    (key : List Nat) (checked : List Node) (current : Node) (hc : current ∉ checked)
    (hrec : ∀ k n b, n ∈ g.addrs → n ∉ checked ++ [current] →
      ∃ m p, recur k (checked ++ [current]) n b = .ok (m, checked ++ [current], b ++ p) ∧
        LexResult g (checked ++ [current]) n destination m p)
    (ls : List GraphLink) :
    ∀ (pre : List GraphLink), g.linksOf current = pre ++ ls →
      (∀ l ∈ ls, l.next ∈ g.addrs) →
      ∀ (bt : Option (List Node)) (r : Int),
        LexInv g checked current destination pre.length bt r →
        ∃ bt1 r1, linksLoop recur key ls pre.length (checked ++ [current]) bt r =
            .ok (checked ++ [current], bt1, r1) ∧
          LexInv g checked current destination (pre.length + ls.length) bt1 r1 := by
  induction ls with
  | nil =>
    intro pre _ _ bt r hinv
    exact ⟨bt, r, by simp [linksLoop], by simpa using hinv⟩
  | cons l ls ih =>
    intro pre hlinks hmem bt r hinv
    have hpos : (g.linksOf current)[pre.length]? = some l := by
      rw [hlinks, List.getElem?_append_right (le_refl _)]
      simp
    have hl : l ∈ g.linksOf current := List.getElem?_mem hpos
    have hlen : (pre ++ [l]).length = pre.length + 1 := by simp
    have hgoal : pre.length + (l :: ls).length = pre.length + 1 + ls.length := by
      simp only [List.length_cons]; omega
    have ih2 : ∀ (bt : Option (List Node)) (r : Int),
        LexInv g checked current destination (pre.length + 1) bt r →
        ∃ bt1 r1, linksLoop recur key ls (pre.length + 1) (checked ++ [current]) bt r =
            .ok (checked ++ [current], bt1, r1) ∧
          LexInv g checked current destination (pre.length + 1 + ls.length) bt1 r1 := by
      intro bt r h
      have := ih (pre ++ [l]) (by rw [hlinks]; simp)
        (fun a ha => hmem a (List.mem_cons_of_mem _ ha)) bt r (by rw [hlen]; exact h)
      rw [hlen] at this
      exact this
    rw [hgoal, linksLoop]
    by_cases hin : l.next ∈ checked ++ [current]
    · simp only [hin, if_true]
      refine ih2 bt r (hinv.skip hpos ?_)
      intro rest hs
      exact hs.2.2 l.next (by simp [pathNodes]) hin
    · simp only [hin, if_false]
      obtain ⟨m, p0, hr, hres⟩ := hrec (pre.length :: key) l.next [l.next]
        (hmem l (List.mem_cons_self _ _)) hin
      rw [hr]
      rcases hres with ⟨rfl, rfl, hnone⟩ | ⟨hm, is0, ls0, hp0, hs0, hmap, hcost, hleast⟩
      · simp only [ne_eq, not_true_eq_false, if_false, and_false]
        exact ih2 bt r (hinv.skip hpos hnone)
      · have hfull : SimplePath g checked current (l :: ls0) destination :=
          SimplePath.cons hl hc hs0
        have hsum := hok current (l :: ls0) hfull.weaken
        rw [pathCost_cons, hcost] at hsum
        have hadd : intAdd m l.metric = .ok (m + l.metric) := by
          simp only [intAdd]
          rw [if_pos]
          constructor <;> linarith [hsum.2.1, hsum.2.2]
        have hcm : m + l.metric ≠ -1 := by
          intro e
          apply hsum.1
          linarith
        simp only [ne_eq, hm, not_false_eq_true, if_true, hadd, hcm, and_true]
        by_cases hacc : m + l.metric < r ∨ r = -1
        · simp only [hacc, if_true]
          have := hinv.accept hpos hc hp0 hs0 hcost hleast hacc hcm
          rw [hmap] at this
          exact ih2 _ _ this
        · simp only [hacc, if_false]
          exact ih2 bt r (hinv.reject hpos
            (fun js ls1 h1 h2 => (hleast js ls1 h1 h2).1) hacc)

theorem myDijkstra_lex (g : Graph T) (junk : List Nat → Int) (destination : Node)
    (hclosed : g.Closed) (hjunk : ∀ k, junk k = -1) (hok : PathSumsOk g destination) :
    ∀ (fuel : Nat) (key : List Nat) (checked : List Node) (current : Node) (best : List Node),
      current ∈ g.addrs → checked.Nodup → (∀ x ∈ checked, x ∈ g.addrs) → current ∉ checked →
      g.nodes.length + 1 ≤ fuel + checked.length →
      ∃ m p, myDijkstra g junk fuel key checked current best destination =
          .ok (m, checked, best ++ p) ∧
        LexResult g checked current destination m p := by
  intro fuel
  induction fuel with
  | zero =>
    intro key checked current best hcur hnd hsub hc hf
    have h3 := (hnd.subperm (fun x hx => hsub x hx)).length_le
    simp only [Graph.addrs, List.length_map] at h3
    omega
  | succ fuel ih =>
    intro key checked current best hcur hnd hsub hc hf
    rw [myDijkstra]
    by_cases heq : current = destination
    · subst heq
      refine ⟨0, [], by simp, Or.inr ⟨by decide, [], [], rfl, ?_, rfl, rfl, ?_⟩⟩
      · exact ⟨rfl, by simp [pathNodes], by simpa [pathNodes] using hc⟩
      · intro js ls1 hp h1
        have e := h1.eq_nil_of_self
        subst e
        exact ⟨by simp [pathCost], fun _ => by simp [lexLe]⟩
    · obtain ⟨nd, hnd2, hndmem⟩ := deref_of_mem_addrs g current hcur
      have hlinks := linksOf_of_deref g current nd hnd2
      simp only [heq, if_false, hnd2]
      have hcs_nd : (checked ++ [current]).Nodup :=
        List.nodup_append.mpr ⟨hnd, List.nodup_singleton _, by
          intro x hx1 hx2
          simp only [List.mem_singleton] at hx2
          subst hx2
          exact hc hx1⟩
      have hcs_sub : ∀ x ∈ checked ++ [current], x ∈ g.addrs := by
        intro x hx
        rcases List.mem_append.mp hx with hx | hx
        · exact hsub x hx
        · simp only [List.mem_singleton] at hx
          subst hx
          exact hcur
      obtain ⟨bt1, r1, h1, h2⟩ := linksLoop_lex g destination hok
        (fun k c n b => myDijkstra g junk fuel k c n b destination) key checked current hc
        (by
          intro k n b hn hnc
          exact ih k (checked ++ [current]) n b hn hcs_nd hcs_sub hnc
            (by simp only [List.length_append, List.length_singleton]; omega))
        nd.links [] (by rw [hlinks]; rfl)
        (fun l hl => hclosed nd hndmem l hl) none (junk key)
        ⟨fun _ => ⟨hjunk key, by intro j _ _ hj; simp at hj⟩, by simp⟩
      simp only [List.length_nil, Nat.zero_add] at h1 h2
      rw [h1]
      -- every position that names a link lies below the length of the vector
      have hlt : ∀ j js ls1, posPath g current (j :: js) = some ls1 → j < nd.links.length := by
        intro j js ls1 hp
        by_contra hge
        have : (g.linksOf current)[j]? = none := by
          rw [hlinks]
          exact List.getElem?_eq_none (by omega)
        simp [posPath, this] at hp
      cases bt1 with
      | some t =>
        obtain ⟨g1, j0, is, ls, _, g3, g4, g5, g6, g7⟩ := h2.2 t rfl
        refine ⟨r1, t, by simp, Or.inr ⟨g1, j0 :: is, ls, g3, g4, g5, g6, ?_⟩⟩
        intro js ls1 hp hs
        cases js with
        | nil =>
          simp only [posPath, Option.some.injEq] at hp
          subst hp
          exact absurd hs.1 heq
        | cons j js => exact g7 j js ls1 (hlt j js ls1 hp) hp hs
      | none =>
        refine ⟨-1, [], by simp, Or.inl ⟨rfl, rfl, ?_⟩⟩
        intro ls1 hs
        obtain ⟨js, hjs⟩ := posPath_of_isLinkPath hs.1
        cases js with
        | nil =>
          simp only [posPath, Option.some.injEq] at hjs
          subst hjs
          exact heq hs.1
        | cons j js => exact (h2.1 rfl).2 j js ls1 (hlt j js ls1 hjs) hjs hs

/-! ## The claims on nodes, stores and the search, continued -/

/-- Claim C13: on a store built from the empty store by admitted calls, `getByValue(out,
v)` with an empty `out` yields the addresses of the nodes whose payload is `v`, in the
order in which the nodes were added (nodes removed in between left out), each once, all of
them and no others, and nothing when no payload is `v`; on any `out` it appends them.
The function returns `out` only: the store is not written. -/
theorem C13_getByValue_insertion_order [DecidableEq T] (ops : List (Op T)) (v : T)
    (h : (Graph.new : Graph T).AdmitsAll ops) :
    (Graph.new.run ops).getByValue [] v =
      ((insertionOrder [] ops).filter (fun e => decide (e.2 = v))).map (fun e => e.1) ∧
    ((Graph.new.run ops).getByValue [] v).Nodup ∧
    (∀ p, p ∈ (Graph.new.run ops).getByValue [] v ↔
      ∃ n ∈ (Graph.new.run ops).nodes, n.addr = p ∧ n.value = v) ∧
    ((∀ n ∈ (Graph.new.run ops).nodes, n.value ≠ v) →
      (Graph.new.run ops).getByValue [] v = []) ∧
    ∀ out, (Graph.new.run ops).getByValue out v =
      out ++ (Graph.new.run ops).getByValue [] v := by
  obtain ⟨hent, hnd⟩ := entries_run (Graph.new : Graph T) ops List.nodup_nil h
  have hent2 : (Graph.new.run ops).entries = insertionOrder [] ops := hent
  have hmem : ∀ p, p ∈ (Graph.new.run ops).getByValue [] v ↔
      ∃ n ∈ (Graph.new.run ops).nodes, n.addr = p ∧ n.value = v := by
    intro p
    simp only [Graph.getByValue, getByValueLoop_eq, List.nil_append, List.mem_map,
      List.mem_filter, decide_eq_true_eq]
    constructor
    · rintro ⟨n, ⟨h1, h2⟩, h3⟩
      exact ⟨n, h1, h3, h2⟩
    · rintro ⟨n, h1, h3, h2⟩
      exact ⟨n, ⟨h1, h2⟩, h3⟩
  refine ⟨?_, ?_, hmem, ?_, ?_⟩
  · rw [getByValue_eq_entries, hent2]
  · rw [getByValue_eq_entries]
    rw [addrs_eq_entries] at hnd
    exact hnd.sublist ((List.filter_sublist _).map _)
  · intro hnone
    apply List.eq_nil_iff_forall_not_mem.mpr
    intro p hp
    obtain ⟨n, hn, _, hv⟩ := (hmem p).mp hp
    exact hnone n hn hv
  · intro out
    simp [Graph.getByValue, getByValueLoop_eq]

/-- Claim C13 on `sampleCalls`: the nodes of payload `x` are found in the order 1, 3, 2,
the order in which they were added. -/
theorem C13_getByValue_insertion_order_witness :
    (Graph.new.run sampleCalls).getByValue [] 'x' = [1, 3, 2] ∧
    insertionOrder [] sampleCalls = [(1, 'x'), (3, 'x'), (2, 'x')] ∧
    (Graph.new.run sampleCalls).getByValue [] 'y' = [] ∧
    ((Graph.new.run sampleCalls).getByValue [] 'x' =
        ((insertionOrder [] sampleCalls).filter (fun e => decide (e.2 = 'x'))).map
          (fun e => e.1) ∧
      ((Graph.new.run sampleCalls).getByValue [] 'x').Nodup ∧
      (∀ p, p ∈ (Graph.new.run sampleCalls).getByValue [] 'x' ↔
        ∃ n ∈ (Graph.new.run sampleCalls).nodes, n.addr = p ∧ n.value = 'x') ∧
      ((∀ n ∈ (Graph.new.run sampleCalls).nodes, n.value ≠ 'x') →
        (Graph.new.run sampleCalls).getByValue [] 'x' = []) ∧
      ∀ out, (Graph.new.run sampleCalls).getByValue out 'x' =
        out ++ (Graph.new.run sampleCalls).getByValue [] 'x') :=
  ⟨rfl, rfl, rfl, C13_getByValue_insertion_order sampleCalls 'x' (by decide)⟩

/-- Claim C15: `myDijkstra` started with an empty visited list ends: the fuel of the
entry points is not exhausted, and more fuel gives the same result.  In every activation
the visited list holds pairwise distinct nodes, does not hold `current`, and followed by
`current` it is the node sequence of a link path from `node1`; its length is at most the
number of nodes of the store and less than the length of any list that holds every node
reachable from `node1`.  The activations are those of `myDijkstraT`, which computes what
`myDijkstra` computes. -/
theorem C15_search_terminates (g : Graph T) (junk : List Nat → Int) (node1 node2 : Node)
    (best : List Node) :
    myDijkstra g junk (g.nodes.length + 1) [] [] node1 best node2 ≠ .error .outOfFuel ∧
    (∀ extra, myDijkstra g junk (g.nodes.length + 1 + extra) [] [] node1 best node2 =
      myDijkstra g junk (g.nodes.length + 1) [] [] node1 best node2) ∧
    (myDijkstraT g junk (g.nodes.length + 1) [] [] node1 best node2).2 =
      myDijkstra g junk (g.nodes.length + 1) [] [] node1 best node2 ∧
    ∀ c cur, (c, cur) ∈ (myDijkstraT g junk (g.nodes.length + 1) [] [] node1 best node2).1 →
      c.Nodup ∧ cur ∉ c ∧
      (∃ ls, IsLinkPath g node1 ls cur ∧ pathNodes node1 ls = c ++ [cur]) ∧
      c.length ≤ g.nodes.length ∧
      ∀ R : List Node, (∀ x, (∃ ls, IsLinkPath g node1 ls x) → x ∈ R) →
        c.length + 1 ≤ R.length := by
  have hfuel := myDijkstra_fuel g junk node2 (g.nodes.length + 1) [] [] node1 best
    List.nodup_nil (by simp) (by simp) (by simp)
  refine ⟨hfuel, ?_, myDijkstraT_snd g junk node2 _ _ _ _ _, ?_⟩
  · intro extra
    exact myDijkstra_extra_fuel g junk node2 _ _ _ _ _ hfuel extra
  · intro c cur hmem
    have hroot : ActivationOk g node1 [] node1 :=
      ⟨List.nodup_nil, by simp, [], rfl, rfl⟩
    have hact := myDijkstraT_activations g junk node1 node2 (g.nodes.length + 1) [] []
      node1 best hroot (c, cur) hmem
    exact ⟨hact.1, hact.2.1, hact.2.2, hact.bounds.1, hact.bounds.2⟩

/-- Claim C16, at an input where the code misses it.  `remove(C)` on the store A, B, C, D
succeeds and hands to `free` the links A→C and B→C and the node object C, in this order.
The link C→D, which C owns, is not released: `free(node)` runs no destructor, while the
destructor of the node, which `delete` would run, releases it.  No call of `remove(x)`
releases a link of `x`. -/
theorem C16_remove_leaks_own_links :
    (abcd.remove 3).1 = true ∧
    removeFreed 3 abcd.nodes = [.link 1 ⟨4, 3⟩, .link 2 ⟨2, 3⟩, .node 3] ∧
    abcd.linksOf 3 = [⟨1, 4⟩] ∧
    Freed.link 3 ⟨1, 4⟩ ∉ removeFreed 3 abcd.nodes ∧
    (⟨3, 'C', [⟨1, 4⟩]⟩ : GraphNode Char).destructorFreed = [.link 3 ⟨1, 4⟩] ∧
    Freed.link 3 ⟨1, 4⟩ ∈ abcd.destructorFreed ∧
    ∀ (g : Graph Char) (x : Node) (l : GraphLink), Freed.link x l ∉ removeFreed x g.nodes :=
  ⟨rfl, rfl, rfl, by decide, rfl, by decide, fun g x l => removeFreed_keeps_own_links x g l⟩

/-- Claim C17, at an input where the code misses it.  In the store `tie` the paths A→B→D
(link positions 0, 0) and A→C→D (positions 1, 0) both cost 2, and 0, 0 is the smaller
sequence.  When the activation for B finds 0 in its unassigned `retVal` it drops its only
branch, so the first link of A yields nothing and the search returns A, C, D.  With `-1`
in every activation it returns A, B, D. -/
theorem C17_tie_break_lost_to_unassigned_retVal :
    posPath tie 1 [0, 0] = some [⟨1, 2⟩, ⟨1, 4⟩] ∧
    SimplePath tie [] 1 [⟨1, 2⟩, ⟨1, 4⟩] 4 ∧ pathCost [⟨1, 2⟩, ⟨1, 4⟩] = 2 ∧
    posPath tie 1 [1, 0] = some [⟨1, 3⟩, ⟨1, 4⟩] ∧
    SimplePath tie [] 1 [⟨1, 3⟩, ⟨1, 4⟩] 4 ∧ pathCost [⟨1, 3⟩, ⟨1, 4⟩] = 2 ∧
    lexLe [0, 0] [1, 0] = true ∧ lexLe [1, 0] [0, 0] = false ∧
    myDijkstra tie junkFirstBranch 5 [] [] 1 [] 4 = .ok (2, [], [3, 4]) ∧
    tie.dijkstraNodes junkFirstBranch [] 1 4 = .ok (true, [1, 3, 4]) ∧
    tie.dijkstraNodes junkNone [] 1 4 = .ok (true, [1, 2, 4]) :=
  ⟨rfl, by decide, by decide, rfl, by decide, by decide, rfl, rfl, rfl, rfl, rfl⟩

/-- Claim C18, balanced backtracking: whenever `myDijkstra` returns, for any store, any
visited list, any `current` and `destination` and any unassigned `retVal`, the visited
list it leaves is the one it was given; and whenever its loop over the links ends, the
visited list is the one the loop started with, so every branch is entered with the same
list. -/
theorem C18_balanced_backtracking (g : Graph T) (junk : List Nat → Int) (fuel : Nat)
    (key : List Nat) (checked : List Node) (current : Node) (best : List Node)
    (destination : Node) (m : Int) (c1 b1 : List Node)
    (h : myDijkstra g junk fuel key checked current best destination = .ok (m, c1, b1)) :
    c1 = checked ∧
    ∀ (f : Nat) (k : List Nat) (ls : List GraphLink) (i : Nat) (cs : List Node)
      (bt : Option (List Node)) (r : Int) (c2 : List Node) (bt2 : Option (List Node))
      (r2 : Int),
      linksLoop (fun k c n b => myDijkstra g junk f k c n b destination) k ls i cs bt r =
        .ok (c2, bt2, r2) → c2 = cs := by
  refine ⟨(myDijkstra_sound g junk destination fuel key checked current best m c1 b1 h).1, ?_⟩
  intro f k ls i cs bt r c2 bt2 r2 hloop
  exact linksLoop_frame _
    (fun k c n b m c1 b1 hh => (myDijkstra_sound g junk destination f k c n b m c1 b1 hh).1)
    k ls i cs bt r c2 bt2 r2 hloop

/-- Claim C18 on the store A, B, C, D, entered with the visited list `[9]`. -/
theorem C18_balanced_backtracking_witness :
    myDijkstra abcd junkNone 5 [] [9] 1 [] 4 = .ok (4, [9], [2, 3, 4]) ∧
    ([9] = [9] ∧
      ∀ (f : Nat) (k : List Nat) (ls : List GraphLink) (i : Nat) (cs : List Node)
        (bt : Option (List Node)) (r : Int) (c2 : List Node) (bt2 : Option (List Node))
        (r2 : Int),
        linksLoop (fun k c n b => myDijkstra abcd junkNone f k c n b 4) k ls i cs bt r =
          .ok (c2, bt2, r2) → c2 = cs) :=
  ⟨rfl, C18_balanced_backtracking abcd junkNone 5 [] [9] 1 [] 4 4 [9] [2, 3, 4] rfl⟩

/-- Claim C19, the link-destination invariant: in a store with pairwise distinct node
addresses in which every link leads to a node of the store, this is still so after
`add`, after `connectTo` on any node with a destination in the store, after
`unconnectTo`, after `remove` (of a node in the store or not), and after every sequence
of admitted calls.  The forms of `dijkstra` return no store: they do not write it. -/
theorem C19_link_destination_invariant (g : Graph T) (hnd : g.addrs.Nodup)
    (hcl : g.Closed) :
    (∀ item p, (g.add item p).2.Closed) ∧
    (∀ s d m, d ∈ g.addrs → (g.connectTo s d m).Closed) ∧
    (∀ s d, (g.unconnectTo s d).Closed) ∧
    (∀ x, (g.remove x).2.Closed) ∧
    (∀ ops, g.AdmitsAll ops → (g.run ops).Closed ∧ (g.run ops).addrs.Nodup) :=
  ⟨fun item p => closed_add g item p hcl,
    fun s d m hd => closed_connectTo g s d m hcl hd,
    fun s d => closed_unconnectTo g s d hcl,
    fun x => closed_remove g x hnd hcl,
    fun ops hadm => ⟨closed_run g ops hnd hcl hadm, (entries_run g ops hnd hadm).2⟩⟩

/-- Claim C19 from the empty store: every store reached by admitted calls has all its
links leading to its own nodes. -/
theorem C19_link_destination_invariant_witness :
    (∀ item p, ((Graph.new : Graph Char).add item p).2.Closed) ∧
    (∀ s d m, d ∈ (Graph.new : Graph Char).addrs →
      ((Graph.new : Graph Char).connectTo s d m).Closed) ∧
    (∀ s d, ((Graph.new : Graph Char).unconnectTo s d).Closed) ∧
    (∀ x, ((Graph.new : Graph Char).remove x).2.Closed) ∧
    (∀ ops, (Graph.new : Graph Char).AdmitsAll ops →
      ((Graph.new : Graph Char).run ops).Closed ∧
        ((Graph.new : Graph Char).run ops).addrs.Nodup) :=
  C19_link_destination_invariant (Graph.new : Graph Char) List.nodup_nil
    (by intro n hn; simp [Graph.new] at hn)

/-- Claim C20, at an input where the code misses it.  On the store with the one link
A→B(1), searched from A to B, the result is the cost 1 and the node B exactly when the
unassigned `retVal` of the first activation holds `-1` or more than 1; for every other
value the search returns `-1` and appends nothing.  With 0 the node form returns `false`,
with `-1` it returns `true` and A, B. -/
theorem C20_result_depends_on_unassigned_retVal :
    (∀ junk : List Nat → Int, myDijkstra oneLink junk 3 [] [] 1 [] 2 =
      if 1 < junk [] ∨ junk [] = -1 then .ok (1, [], [2]) else .ok (-1, [], [])) ∧
    myDijkstra oneLink junkZero 3 [] [] 1 [] 2 = .ok (-1, [], []) ∧
    myDijkstra oneLink junkNone 3 [] [] 1 [] 2 = .ok (1, [], [2]) ∧
    oneLink.dijkstraNodes junkZero [] 1 2 = .ok (false, []) ∧
    oneLink.dijkstraNodes junkNone [] 1 2 = .ok (true, [1, 2]) := by
  refine ⟨?_, rfl, rfl, rfl, rfl⟩
  intro junk
  by_cases h : 1 < junk [] ∨ junk [] = -1
  · simp [myDijkstra, linksLoop, Graph.deref, oneLink, intAdd, INT_MIN, INT_MAX, h]
  · simp [myDijkstra, linksLoop, Graph.deref, oneLink, intAdd, INT_MIN, INT_MAX, h]

end Graphs
